import Mathlib

/-!
Verification development for the amino rules engine.

Shallow embedding of the evaluation core (amino/rules/ast.py,
amino/rules/compiler.py, amino/rules/optimizer.py), the runtime
(amino/runtime/evaluator.py, amino/runtime/matcher.py,
amino/runtime/compiled_rules.py), the engine facade (amino/engine.py),
the operator registry (amino/operators/registry.py) and the schema
symbol table (amino/schema/registry.py).

Python runtime values are modelled by `Value`; machine-level floats do
not occur in any claim and are omitted (integers are unbounded in
Python, so `Int` is exact).  Raised exceptions are modelled by
`Except PyErr`; each `PyErr` constructor stands for one exception class
of the source (messages are dropped).
-/

namespace Amino

/-- Python runtime values as they occur in decisions and rule literals:
`None`, `bool`, `int`, `str`, `list`, and `dict` (nested struct data).
Python decision records are string-keyed dicts. -/
inductive Value : Type where
  | none : Value
  | bool (b : Bool) : Value
  | int (n : Int) : Value
  | str (s : String) : Value
  | list (xs : List Value) : Value
  | dict (fields : List (String × Value)) : Value
deriving Repr

/-- Python `x is None`. -/
def Value.isNone : Value → Bool
  | .none => true
  | _ => false

/-- Exception classes of the source that the embedded code can raise.
`ruleEvaluation` is `RuleEvaluationError`, `typeError` is Python
`TypeError` (unorderable or non-container operands), `valueError` is
Python `ValueError`, `recursionDepth` is Python `RecursionError`,
`userError` stands for any other exception escaping a user-supplied
function. -/
inductive PyErr : Type where
  | ruleEvaluation : PyErr
  | typeError : PyErr
  | valueError : PyErr
  | recursionDepth : PyErr
  | userError : PyErr
deriving Repr, DecidableEq

/-- Python truthiness (`bool(x)`): `None` and `False` are falsy, numbers
are truthy iff nonzero, strings/lists/dicts are truthy iff nonempty. -/
def truthy : Value → Bool
  | .none => false
  | .bool b => b
  | .int n => n != 0
  | .str s => s.length != 0
  | .list xs => xs.length != 0
  | .dict fs => fs.length != 0

/-- Numeric view: Python treats `bool` as an `int` (`True == 1`). -/
def asNum : Value → Option Int
  | .bool b => some (if b then 1 else 0)
  | .int n => some n
  | _ => none

mutual

/-- Python `==` on the embedded values.  Numbers (including `bool`)
compare numerically, mismatched kinds compare unequal (no exception);
lists compare elementwise.  Dicts are compared entrywise in insertion
order, which coincides with Python dict equality for the dicts that
arise here (schema-shaped records built in one pass). -/
def pyEq : Value → Value → Bool
  | .none, .none => true
  | .str a, .str b => a == b
  | .list xs, .list ys => pyEqList xs ys
  | .dict xs, .dict ys => pyEqDict xs ys
  | a, b =>
    match asNum a, asNum b with
    | some x, some y => x == y
    | _, _ => false

def pyEqList : List Value → List Value → Bool
  | [], [] => true
  | x :: xs, y :: ys => pyEq x y && pyEqList xs ys
  | _, _ => false

def pyEqDict : List (String × Value) → List (String × Value) → Bool
  | [], [] => true
  | (k, v) :: xs, (l, w) :: ys => k == l && pyEq v w && pyEqDict xs ys
  | _, _ => false

end

mutual

/-- Python `<` on the embedded values.  Numbers (including `bool`)
compare numerically, strings lexicographically, lists lexicographically
elementwise; any other combination raises `TypeError`. -/
def pyLt : Value → Value → Except PyErr Bool
  | .str a, .str b => .ok (a < b)
  | .list xs, .list ys => pyLtList xs ys
  | a, b =>
    match asNum a, asNum b with
    | some x, some y => .ok (x < y)
    | _, _ => .error .typeError

def pyLtList : List Value → List Value → Except PyErr Bool
  | [], [] => .ok false
  | [], _ :: _ => .ok true
  | _ :: _, [] => .ok false
  | x :: xs, y :: ys => if pyEq x y then pyLtList xs ys else pyLt x y

end

/-- Contiguous-subsequence test on character lists (Python substring
containment). -/
def containsSub (needle : List Char) : List Char → Bool
  | [] => needle.isEmpty
  | c :: rest => needle.isPrefixOf (c :: rest) || containsSub needle rest

/-- Python `in`: membership by `==` in a list, substring test on
strings, key membership in a dict; anything else raises `TypeError`. -/
def pyIn (l : Value) (r : Value) : Except PyErr Bool :=
  match r with
  | .list ys => .ok (ys.any (fun y => pyEq l y))
  | .str hay =>
    match l with
    | .str needle => .ok (containsSub needle.toList hay.toList)
    | _ => .error .typeError
  | .dict fs => .ok (fs.any (fun kv => pyEq l (.str kv.1)))
  | _ => .error .typeError

/-- The `Operator` enum of amino/rules/ast.py. -/
inductive Operator : Type where
  | EQ | NE | GT | LT | GTE | LTE
  | AND | OR | NOT
  | IN | NOT_IN
  | TYPEOF | IS_VALID
deriving Repr, DecidableEq

/-- The `SchemaType` enum of amino/schema/types.py (the node type tags
carried by rule-AST nodes). -/
inductive SchemaType : Type where
  | str | int | float | bool | decimal | any | list | struct | custom
deriving Repr, DecidableEq

/-- Rule-AST nodes of amino/rules/ast.py: `Literal`, `Variable`,
`BinaryOp`, `UnaryOp`, `FunctionCall`; every node carries its
`return_type` tag. -/
inductive RuleNode : Type where
  | lit (value : Value) (return_type : SchemaType) : RuleNode
  | var (name : String) (return_type : SchemaType) : RuleNode
  | binary (operator : Operator) (left : RuleNode) (right : RuleNode)
      (return_type : SchemaType) : RuleNode
  | unary (operator : Operator) (operand : RuleNode)
      (return_type : SchemaType) : RuleNode
  | funcCall (name : String) (args : List RuleNode)
      (return_type : SchemaType) : RuleNode
deriving Repr

/-- A decision record: a string-keyed Python dict. -/
def Data : Type := List (String × Value)

/-- A user-supplied host function: takes the evaluated argument list and
either returns a value or raises. -/
def PyFunc : Type := List Value → Except PyErr Value

/-- The function registry passed to evaluators. -/
def Funcs : Type := List (String × PyFunc)

/-- `get_binary_operation` of amino/rules/compiler.py: the comparison
and membership operations; `and` / `or` / `not` and the unused enum
members fall through to `RuleEvaluationError`. -/
def pyBinOp (op : Operator) (l r : Value) : Except PyErr Value :=
  match op with
  | .EQ => .ok (.bool (pyEq l r))
  | .NE => .ok (.bool (!pyEq l r))
  | .GT => (pyLt r l).map Value.bool
  | .LT => (pyLt l r).map Value.bool
  | .GTE => (pyLt l r).map (fun b => Value.bool (!b))
  | .LTE => (pyLt r l).map (fun b => Value.bool (!b))
  | .IN => (pyIn l r).map Value.bool
  | .NOT_IN => (pyIn l r).map (fun b => Value.bool (!b))
  | _ => .error .ruleEvaluation

/-- `evaluate_dotted_variable` of amino/rules/compiler.py: split the
name on `.` and descend through nested dicts; a missing part raises
`RuleEvaluationError`. -/
def evalDotted (name : String) (data : Data) : Except PyErr Value :=
  (name.splitOn ".").foldlM
    (fun value part =>
      match value with
      | Value.dict fields =>
        match fields.lookup part with
        | some v => .ok v
        | none => .error .ruleEvaluation
      | _ => .error .ruleEvaluation)
    (Value.dict data)

/-- The `Variable` evaluator of amino/rules/compiler.py: a top-level hit
first, then the dotted-name path, else `RuleEvaluationError`. -/
def evalVariable (name : String) (data : Data) : Except PyErr Value :=
  match data.lookup name with
  | some v => .ok v
  | none =>
    if name.contains '.' then evalDotted name data
    else .error .ruleEvaluation

/-- `generate_evaluator` of amino/rules/compiler.py, fused into one
recursive evaluator.  `and` / `or` short-circuit exactly as the source:
`left_val and bool(right)` returns `left_val` itself when falsy, and
`left_val or bool(right)` returns `left_val` itself when truthy.
Function calls check registry membership first, then evaluate arguments
left to right. -/
def evalNode (data : Data) (fns : Funcs) : RuleNode → Except PyErr Value
  | .lit v _ => .ok v
  | .var name _ => evalVariable name data
  | .binary op l r _ => do
    let lv ← evalNode data fns l
    match op with
    | .AND =>
      if truthy lv then (evalNode data fns r).map (fun rv => .bool (truthy rv))
      else .ok lv
    | .OR =>
      if truthy lv then .ok lv
      else (evalNode data fns r).map (fun rv => .bool (truthy rv))
    | _ => do
      let rv ← evalNode data fns r
      pyBinOp op lv rv
  | .unary op x _ => do
    let xv ← evalNode data fns x
    match op with
    | .NOT => .ok (.bool (!truthy xv))
    | _ => .error .ruleEvaluation
  | .funcCall name args _ =>
    match fns.lookup name with
    | none => .error .ruleEvaluation
    | some f => do
      let vals ← args.attach.mapM (fun a => evalNode data fns a.1)
      f vals
termination_by node => sizeOf node
decreasing_by
  all_goals simp_wf
  all_goals first
    | omega
    | (have h := List.sizeOf_lt_of_mem a.2; omega)

/-- `CompiledRule` of amino/rules/compiler.py: a rule id together with
the compiled evaluator, which is the generated evaluator of the rule's
AST root (`RuleCompiler.compile_rule`).  The `variables` / `functions`
lists carried by the source object do not affect evaluation and are
omitted. -/
structure CompiledRule : Type where
  rule_id : String
  root : RuleNode

/-- `CompiledRule.evaluate`: runs the evaluator and re-raises any
exception as `RuleEvaluationError`. -/
def CompiledRule.evaluate (r : CompiledRule) (data : Data) (fns : Funcs) :
    Except PyErr Value :=
  match evalNode data fns r.root with
  | .ok v => .ok v
  | .error _ => .error .ruleEvaluation

/-- `RuleEvaluator.evaluate_single` of amino/runtime/evaluator.py:
wraps any exception from `CompiledRule.evaluate` as
`RuleEvaluationError`. -/
def evaluateSingle (fns : Funcs) (r : CompiledRule) (data : Data) :
    Except PyErr Value :=
  match r.evaluate data fns with
  | .ok v => .ok v
  | .error _ => .error .ruleEvaluation

/-- `RuleEvaluator.evaluate_rules_for_data` of
amino/runtime/evaluator.py: evaluate every rule in order; a
`RuleEvaluationError` from one rule is caught and recorded as a falsy
`(rule_id, False)` verdict; any other exception class would propagate
(the `except RuleEvaluationError` clause is the only handler). -/
def evaluateRulesForData (fns : Funcs) :
    List CompiledRule → Data → Except PyErr (List (String × Value))
  | [], _ => .ok []
  | r :: rest, data =>
    match evaluateSingle fns r data with
    | .ok v => do
      let tail ← evaluateRulesForData fns rest data
      .ok ((r.rule_id, v) :: tail)
    | .error .ruleEvaluation => do
      let tail ← evaluateRulesForData fns rest data
      .ok ((r.rule_id, .bool false) :: tail)
    | .error e => .error e

/-- `MatchMode` of amino/runtime/matcher.py. -/
inductive MatchMode : Type where
  | ALL | FIRST | BEST
deriving Repr, DecidableEq

/-- Matching direction literals of amino/runtime/matcher.py
(`ordering_direction`). -/
inductive Direction : Type where
  | asc | desc
deriving Repr, DecidableEq

/-- `MatchOptions` of amino/runtime/matcher.py. -/
structure MatchOptions : Type where
  mode : MatchMode := .ALL
  ordering_key : Option String := none
  ordering_direction : Direction := .asc

/-- `MatchResult` of amino/runtime/matcher.py (legacy shape): decision
id, list of matched rule ids, optional metadata (never set by the
matcher). -/
structure MatchResult : Type where
  id : Value
  results : List String
  metadata : Option (List (String × Value)) := none
deriving Repr

/-- Per-rule ordering metadata: `rule_id -> {key -> value}`; ordering
values are the integers supplied as rule `ordering` metadata. -/
def Metadata : Type := List (String × List (String × Int))

/-- The sort key of `RuleMatcher._sort_rules`:
`metadata.get(rule_id, {}).get(key, float('inf'))`; `none` is the
missing-key `+inf`. -/
def getOrderingValue (metadata : Metadata) (key : String) (rule_id : String) :
    Option Int :=
  (metadata.lookup rule_id).bind (fun m => m.lookup key)

/-- Order on sort keys with `none` as `+inf` (`<=`, total). -/
def keyLE : Option Int → Option Int → Bool
  | _, none => true
  | none, some _ => false
  | some a, some b => a ≤ b

/-- `RuleMatcher._sort_rules`: Python `sorted(ids, key=..., reverse=r)`
is the unique stable sort of the key preorder (`reverse=True` sorts as
if each comparison were reversed, still stable), embedded with
`List.mergeSort`. -/
def sortRules (opts : MatchOptions) (metadata : Metadata)
    (rule_ids : List String) : List String :=
  match opts.ordering_key with
  | none => rule_ids
  | some key =>
    let k := getOrderingValue metadata key
    match opts.ordering_direction with
    | .asc => rule_ids.mergeSort (fun a b => keyLE (k a) (k b))
    | .desc => rule_ids.mergeSort (fun a b => keyLE (k b) (k a))

/-- The matched-rule filter of `RuleMatcher.process_matches`:
`[rule_id for rule_id, matched in rule_matches if matched]`. -/
def matchedIds (rule_matches : List (String × Value)) : List String :=
  (rule_matches.filter (fun p => truthy p.2)).map Prod.fst

/-- `RuleMatcher.process_matches` of amino/runtime/matcher.py.  The
`BEST` branch of the source calls `process_matches` again with
unchanged arguments, an unconditional self-recursion that can only end
in Python `RecursionError`; it is embedded as that error. -/
def processMatches (opts : MatchOptions) (data_id : Value)
    (rule_matches : List (String × Value)) (rule_metadata : Metadata) :
    Except PyErr MatchResult :=
  let matched_rules := matchedIds rule_matches
  match opts.mode with
  | .ALL => .ok ⟨data_id, matched_rules, none⟩
  | .FIRST =>
    match matched_rules with
    | [] => .ok ⟨data_id, [], none⟩
    | m :: rest =>
      match opts.ordering_key with
      | some _ =>
        match sortRules opts rule_metadata (m :: rest) with
        | [] => .ok ⟨data_id, [], none⟩
        | s :: _ => .ok ⟨data_id, [s], none⟩
      | none => .ok ⟨data_id, [m], none⟩
  | .BEST => .error .recursionDepth

/-- `CompiledRules` of amino/runtime/compiled_rules.py (the revision in
the tree): compiled rules, the evaluator's function registry, the
matcher options and the per-rule metadata added via
`add_rule_metadata`. -/
structure CompiledRulesL : Type where
  rules : List CompiledRule
  function_registry : Funcs
  match_options : MatchOptions
  rule_metadata : Metadata

/-- `CompiledRules.eval`: for each decision, `item.get("id")` must be
non-`None` or `ValueError` is raised; then all rules are evaluated and
the verdicts passed to the matcher. -/
def CompiledRulesL.eval (c : CompiledRulesL) (data : List Data) :
    Except PyErr (List MatchResult) :=
  data.mapM (fun item =>
    let item_id := (item.lookup "id").getD .none
    if item_id.isNone then .error .valueError
    else do
      let rule_results ← evaluateRulesForData c.function_registry c.rules item
      processMatches c.match_options item_id rule_results c.rule_metadata)

/-- `CompiledRules.eval_single`: evaluates the one-element batch (the
empty-result fallback of the source is unreachable for a one-element
input and surfaces only through `eval`'s exceptions). -/
def CompiledRulesL.eval_single (c : CompiledRulesL) (data : Data) :
    Except PyErr MatchResult := do
  let results ← c.eval [data]
  match results with
  | r :: _ => .ok r
  | [] => .ok ⟨(data.lookup "id").getD .none, [], none⟩

/-! ## The rule optimizer (amino/rules/optimizer.py) -/

/-- Python `node.value is True` for a `Literal` node (identity with the
`True` object, so only the boolean itself matches, never `1`). -/
def litIsTrue : RuleNode → Bool
  | .lit (.bool true) _ => true
  | _ => false

/-- Python `node.value is False` for a `Literal` node. -/
def litIsFalse : RuleNode → Bool
  | .lit (.bool false) _ => true
  | _ => false

/-- `isinstance(node, Literal)`. -/
def isLit : RuleNode → Bool
  | .lit _ _ => true
  | _ => false

/-- The value of a `Literal` node (`Value.none` elsewhere; only read
under an `isLit` guard). -/
def litVal : RuleNode → Value
  | .lit v _ => v
  | _ => .none

/-- `RuleOptimizer._evaluate_literal_binary_op`: fold a binary operator
applied to two literal values; comparison and membership folds use the
same Python operations as the evaluator and propagate their
`TypeError`s; an unhandled operator returns the original node. -/
def foldLiterals (op : Operator) (lv rv : Value) (orig : RuleNode) :
    Except PyErr RuleNode :=
  match op with
  | .EQ => .ok (.lit (.bool (pyEq lv rv)) .bool)
  | .NE => .ok (.lit (.bool (!pyEq lv rv)) .bool)
  | .GT => (pyLt rv lv).map (fun b => .lit (.bool b) .bool)
  | .LT => (pyLt lv rv).map (fun b => .lit (.bool b) .bool)
  | .GTE => (pyLt lv rv).map (fun b => .lit (.bool (!b)) .bool)
  | .LTE => (pyLt rv lv).map (fun b => .lit (.bool (!b)) .bool)
  | .AND => .ok (.lit (.bool (truthy lv && truthy rv)) .bool)
  | .OR => .ok (.lit (.bool (truthy lv || truthy rv)) .bool)
  | .IN => (pyIn lv rv).map (fun b => .lit (.bool b) .bool)
  | .NOT_IN => (pyIn lv rv).map (fun b => .lit (.bool (!b)) .bool)
  | _ => .ok orig

/-- The body of `RuleOptimizer._optimize_binary_op` after the children
have been optimized: constant folding on two literal children (the
original node is passed through on unhandled operators), then the four
boolean identities for `and` and for `or`, in source order. -/
def optimizeBinary (op : Operator) (left right orig : RuleNode)
    (ty : SchemaType) : Except PyErr RuleNode :=
  match left, right with
  | .lit lv _, .lit rv _ => foldLiterals op lv rv orig
  | left, right =>
    match op with
    | .AND =>
      if litIsTrue left then .ok right
      else if litIsFalse left then .ok (.lit (.bool false) .bool)
      else if litIsTrue right then .ok left
      else if litIsFalse right then .ok (.lit (.bool false) .bool)
      else .ok (.binary op left right ty)
    | .OR =>
      if litIsTrue left then .ok (.lit (.bool true) .bool)
      else if litIsFalse left then .ok right
      else if litIsTrue right then .ok (.lit (.bool true) .bool)
      else if litIsFalse right then .ok left
      else .ok (.binary op left right ty)
    | _ => .ok (.binary op left right ty)

/-- The body of `RuleOptimizer._optimize_unary_op` after the operand
has been optimized: `NOT` folding on a boolean literal, then
double-negation elimination. -/
def optimizeUnary (op : Operator) (operand : RuleNode) (ty : SchemaType) :
    Except PyErr RuleNode :=
  match op, operand with
  | .NOT, .lit (.bool b) _ => .ok (.lit (.bool (!b)) .bool)
  | .NOT, .unary .NOT y _ => .ok y
  | op, operand => .ok (.unary op operand ty)

/-- `RuleOptimizer._optimize_node`: children first (binary and unary
nodes), every other node returned unchanged.  Folding of comparisons
can raise (`TypeError` on unorderable literal values), hence the
`Except`. -/
def optimizeNode : RuleNode → Except PyErr RuleNode
  | .binary op l r ty => do
    let left ← optimizeNode l
    let right ← optimizeNode r
    optimizeBinary op left right (.binary op l r ty) ty
  | .unary op x ty => do
    let operand ← optimizeNode x
    optimizeUnary op operand ty
  | n => .ok n

/-- Logic-free nodes: no `and` / `or` / `not` anywhere outside
function-call arguments (the optimizer never descends into
`FunctionCall` arguments, so their contents are inert). On these nodes
the optimizer only performs constant folding, which is
value-preserving. -/
def lf : RuleNode → Bool
  | .binary op l r _ =>
    match op with
    | .AND | .OR => false
    | _ => lf l && lf r
  | .unary op x _ =>
    match op with
    | .NOT => false
    | _ => lf x
  | _ => true

/-- Well-structured nodes: the boolean operators `and` / `or` / `not`
appear only above comparison / membership nodes, never inside their
operands — the shape the rule grammar produces.  The boolean-identity
rewrites of the optimizer preserve truthiness but not values, so they
are only sound where merely truthiness flows upward. -/
def ws : RuleNode → Bool
  | .binary op l r _ =>
    match op with
    | .AND | .OR => ws l && ws r
    | _ => lf l && lf r
  | .unary _ x _ => ws x
  | _ => true

/-! ## Error taxonomy of amino/errors.py -/

/-- The `AminoError` subclasses of amino/errors.py, plus
`TypeValidationError` of amino/utils/errors.py — the class
`TypeRegistry.register_type` raises on a duplicate name (messages and
structured fields dropped). -/
inductive AminoErr : Type where
  | schemaParse
  | schemaValidation
  | ruleParse
  | typeMismatch
  | decisionValidation
  | ruleEvaluation
  | operatorConflict
  | engineAlreadyFrozen
  | typeValidation
deriving Repr, DecidableEq

/-! ## The operator registry (amino/operators/registry.py) -/

/-- `OperatorDef` of amino/operators/registry.py.  Implementation
functions only matter by identity for the registry claims and are
modelled as opaque numeric ids (`none` for `and` / `or` / `not`, whose
implementations the compiler ignores). -/
structure OperatorDef : Type where
  fn : Option Nat
  binding_power : Nat
  symbol : Option String := none
  keyword : Option String := none
  kind : String := "infix"
  associativity : String := "left"
  input_types : List String := ["*", "*"]
  return_type : String := "Bool"
deriving Repr, DecidableEq

/-- Python truthiness of an optional string (`None` and `""` falsy). -/
def strTruthy : Option String → Bool
  | some s => !s.isEmpty
  | none => false

/-- `OperatorDef.token`: `self.symbol or self.keyword` (Python `or` on
possibly-falsy strings). -/
def OperatorDef.token (op : OperatorDef) : String :=
  if strTruthy op.symbol then op.symbol.getD "" else op.keyword.getD ""

/-- Set insertion for the registry's `symbols` / `keywords` sets. -/
def addToSet {α : Type} [BEq α] (xs : List α) (a : α) : List α :=
  if xs.contains a then xs else xs ++ [a]

/-- `dict.setdefault(token, []).append(op)`: append to the token's
bucket, creating the bucket at the end on first use. -/
def bucketAppend :
    List (String × List OperatorDef) → String → OperatorDef →
    List (String × List OperatorDef)
  | [], token, op => [(token, [op])]
  | (k, ops) :: rest, token, op =>
    if k = token then (k, ops ++ [op]) :: rest
    else (k, ops) :: bucketAppend rest token op

/-- `OperatorRegistry` of amino/operators/registry.py. -/
structure OperatorRegistry : Type where
  by_token : List (String × List OperatorDef) := []
  symbols : List String := []
  keywords : List (Option String) := []

/-- The candidate bucket for a token (`self._by_token.get(token, [])`). -/
def OperatorRegistry.candidates (reg : OperatorRegistry) (token : String) :
    List OperatorDef :=
  (reg.by_token.lookup token).getD []

/-- `OperatorRegistry.register`: scan the token's bucket for a
definition with identical `input_types` (raising `OperatorConflictError`
on a hit), then append and record the token in the symbols or keywords
set (`if op.symbol:` truthiness). -/
def OperatorRegistry.register (reg : OperatorRegistry) (op : OperatorDef) :
    Except AminoErr OperatorRegistry :=
  let token := op.token
  match (reg.candidates token).find?
      (fun existing => existing.input_types == op.input_types) with
  | some _ => .error .operatorConflict
  | none =>
    .ok { by_token := bucketAppend reg.by_token token op
          symbols :=
            if strTruthy op.symbol then addToSet reg.symbols (op.symbol.getD "")
            else reg.symbols
          keywords :=
            if strTruthy op.symbol then reg.keywords
            else addToSet reg.keywords op.keyword }

/-- `OperatorRegistry.lookup_by_types`: exact operand-tuple match first,
then wildcard match (`*` in an expected position matches anything, with
a length guard), then the single-candidate fallback. -/
def OperatorRegistry.lookup_by_types (reg : OperatorRegistry)
    (token : String) (input_types : List String) : Option OperatorDef :=
  let candidates := reg.candidates token
  match candidates.find? (fun op => op.input_types == input_types) with
  | some op => some op
  | none =>
    match candidates.find? (fun op =>
        op.input_types.length == input_types.length &&
        (op.input_types.zip input_types).all
          (fun p => p.1 == "*" || p.1 == p.2)) with
    | some op => some op
    | none => if candidates.length == 1 then candidates.head? else none

/-! ## The engine facade (amino/engine.py) and the type registry
(amino/types/registry.py) -/

/-- `TypeDefinition` of amino/types/registry.py, restricted to the
components the registration claims consult: the base type, the
validator (an opaque id) and the keyword arguments collected into
`**constraints` (only boolean-valued keywords occur on the engine's
call path); `format_string` and `description` are never read by the
duplicate check or by lookup. -/
structure TypeDef : Type where
  base : String
  validator : Nat
  constraints : List (String × Bool) := []
deriving Repr, DecidableEq

/-- Replace-or-append update of a string-keyed association list
(Python dict assignment: an existing key keeps its position). -/
def dictSet {α : Type} :
    List (String × α) → String → α → List (String × α)
  | [], k, v => [(k, v)]
  | (k0, v0) :: rest, k, v =>
    if k0 = k then (k0, v) :: rest
    else (k0, v0) :: dictSet rest k v

/-- `TypeRegistry.register_type` of amino/types/registry.py (lines
27-48): `if name in self._types: raise TypeValidationError(...)`,
otherwise `self._types[name] = type_def` (a fresh key appends in dict
order).  The method signature has no `overwrite` parameter: any
`overwrite=...` keyword argument is silently collected into
`**constraints` and stored on the new entry, and the duplicate check
fires regardless. -/
def registerTypeReg (reg : List (String × TypeDef))
    (name base : String) (validator : Nat)
    (constraints : List (String × Bool)) :
    Except AminoErr (List (String × TypeDef)) :=
  if (reg.lookup name).isSome then .error .typeValidation
  else .ok (reg ++ [(name, ⟨base, validator, constraints⟩)])

/-- `Engine` of amino/engine.py: the registration state and the frozen
flag.  The schema registry, modes, and compiled output do not interact
with the freeze/registration claims and are omitted; host function
implementations are opaque ids. -/
structure Engine : Type where
  functions : List (String × Nat) := []
  type_registry : List (String × TypeDef) := []
  op_registry : OperatorRegistry := {}
  frozen : Bool := false

/-- `Engine._check_frozen`. -/
def Engine.check_frozen (e : Engine) : Except AminoErr Unit :=
  if e.frozen then .error .engineAlreadyFrozen else .ok ()

/-- `Engine.add_function`. -/
def Engine.add_function (e : Engine) (name : String) (fn : Nat) :
    Except AminoErr Engine := do
  e.check_frozen
  .ok { e with functions := dictSet e.functions name fn }

/-- `Engine.register_type`: frozen check, then
`self._type_registry.register_type(name, base, validator,
overwrite=True)`.  The `overwrite=True` keyword matches no parameter of
the registry method and lands in `**constraints`, so the intended
overwrite semantics never reach the duplicate check. -/
def Engine.register_type (e : Engine) (name base : String)
    (validator : Nat) : Except AminoErr Engine := do
  e.check_frozen
  let tr ← registerTypeReg e.type_registry name base validator
    [("overwrite", true)]
  .ok { e with type_registry := tr }

/-- `Engine.register_operator`: frozen check, then operator-registry
registration of the assembled `OperatorDef`. -/
def Engine.register_operator (e : Engine) (op : OperatorDef) :
    Except AminoErr Engine := do
  e.check_frozen
  let reg ← e.op_registry.register op
  .ok { e with op_registry := reg }

/-- `Engine.compile`'s effect on the engine state: `self._freeze()` is
its first statement, before any rule is parsed (a later parse failure
leaves the engine frozen); nothing else in `compile` touches the
engine state. -/
def Engine.compileMark (e : Engine) : Engine := { e with frozen := true }

/-- `Engine.eval` calls `Engine.compile`, so its state effect is the
same freeze. -/
def Engine.evalMark (e : Engine) : Engine := e.compileMark

/-! ## Schema AST and the symbol table (amino/schema/ast.py,
amino/schema/registry.py) -/

/-- `FieldDefinition` of amino/schema/ast.py, restricted to the
components the symbol table and validator consult (`name`,
`type_name`); constraint and optionality data are never read by the
indexing code. -/
structure FieldDefinition : Type where
  name : String
  type_name : String
deriving Repr, DecidableEq

/-- `StructDefinition` of amino/schema/ast.py. -/
structure StructDefinition : Type where
  name : String
  fields : List FieldDefinition
deriving Repr, DecidableEq

/-- `SchemaAST` of amino/schema/ast.py (functions and constants omitted:
they play no part in struct indexing or cycle detection). -/
structure SchemaAST : Type where
  fields : List FieldDefinition := []
  structs : List StructDefinition := []
deriving Repr, DecidableEq

/-- `self._struct_map = {s.name: s for s in ast.structs}`: a dict
comprehension, so a duplicated struct name keeps the last entry. -/
def structMapLookup (structs : List StructDefinition) (name : String) :
    Option StructDefinition :=
  structs.reverse.find? (fun s => s.name == name)

/-- `f.type_name in self._struct_map`. -/
def isStructName (structs : List StructDefinition) (name : String) : Bool :=
  (structMapLookup structs name).isSome

mutual

/-- `SchemaRegistry._index_struct` of amino/schema/registry.py,
producing the ordered sequence of `self._fields[key] = f` assignments.
The Python recursion is unbounded (struct-typed fields recurse
immediately); the embedding carries explicit fuel, and exhausted fuel
models Python's `RecursionError` on a cyclic struct graph. -/
def indexStructF :
    Nat → List StructDefinition → String → String →
    Except PyErr (List (String × FieldDefinition))
  | 0, _, _, _ => .error .recursionDepth
  | n + 1, structs, pfx, struct_name =>
    match structMapLookup structs struct_name with
    | none => .ok []
    | some s => indexStructFieldsF n structs pfx s.fields
termination_by n _ _ _ => (n, 0)

/-- The per-field body of `_index_struct`: record the dotted entry, then
recurse when the field's type is a struct. -/
def indexStructFieldsF :
    Nat → List StructDefinition → String → List FieldDefinition →
    Except PyErr (List (String × FieldDefinition))
  | _, _, _, [] => .ok []
  | n, structs, pfx, f :: rest => do
    let key := pfx ++ "." ++ f.name
    let sub ←
      if isStructName structs f.type_name then
        indexStructF n structs key f.type_name
      else .ok []
    let tail ← indexStructFieldsF n structs pfx rest
    .ok ((key, f) :: (sub ++ tail))
termination_by n _ _ fields => (n, fields.length + 1)

end

/-- `SchemaRegistry._index`: every top-level field gets an entry, and a
struct-typed field is expanded transitively. -/
def indexTopFieldsF (fuel : Nat) (structs : List StructDefinition) :
    List FieldDefinition → Except PyErr (List (String × FieldDefinition))
  | [] => .ok []
  | f :: rest => do
    let sub ←
      if isStructName structs f.type_name then
        indexStructF fuel structs f.name f.type_name
      else .ok []
    let tail ← indexTopFieldsF fuel structs rest
    .ok ((f.name, f) :: (sub ++ tail))

/-- The symbol-table construction of `SchemaRegistry.__init__`
(run after validation). -/
def buildSymbolTableF (fuel : Nat) (ast : SchemaAST) :
    Except PyErr (List (String × FieldDefinition)) :=
  indexTopFieldsF fuel ast.structs ast.fields

/-- One arc of the struct-field-type reference graph: struct `a`
(resolved through the struct map) has a field whose type is struct
`b`. -/
def structEdge (structs : List StructDefinition) (a b : String) : Prop :=
  ∃ s, structMapLookup structs a = some s ∧
    ∃ f ∈ s.fields, f.type_name = b ∧ isStructName structs b = true

/-- Decidable form of `structEdge`. -/
def edgeB (structs : List StructDefinition) (a b : String) : Bool :=
  match structMapLookup structs a with
  | none => false
  | some s =>
    s.fields.any (fun f => f.type_name == b && isStructName structs b)

/-- An edge path starting at `a` and visiting the listed nodes in
order. -/
def pathFrom (structs : List StructDefinition) : String → List String → Prop
  | _, [] => True
  | a, b :: p => structEdge structs a b ∧ pathFrom structs b p

/-- Reachability within `k` steps, by bounded expansion through the
struct names. -/
def reachF (structs : List StructDefinition) :
    Nat → String → String → Bool
  | 0, _, _ => false
  | k + 1, a, b =>
    edgeB structs a b ||
      (structs.map (fun s => s.name)).any
        (fun c => edgeB structs a c && reachF structs k c b)

/-- Modelled from the spec: the schema validator revision used by
`SchemaRegistry` (raising `SchemaValidationError`, with circular-struct
detection, §4.4) is absent from the tree; the tree holds an older
revision that returns an error list and knows nothing of cycles.  Cycle
detection is bounded reachability of a struct name from itself (the
graph has `structs.length` vertices). -/
def hasCircularStructsB (ast : SchemaAST) : Bool :=
  (ast.structs.map (fun s => s.name)).any
    (fun s => reachF ast.structs ast.structs.length s s)

/-- Modelled from the spec: the §4.4 validator, restricted to the
checks relevant to the cycle claim — duplicate top-level names first
(mirroring the check order of §4.4), then circular structs; both raise
`SchemaValidationError` (the unknown-type and constraint checks, also
`SchemaValidationError`, are omitted). -/
def validateSchemaM (ast : SchemaAST) : Except AminoErr Unit :=
  if !(ast.fields.map (fun f => f.name) ++
        ast.structs.map (fun s => s.name)).Nodup then
    .error .schemaValidation
  else if hasCircularStructsB ast then
    .error .schemaValidation
  else .ok ()

/-- A struct `A { x: B }`, for the concrete cyclic schema below. -/
def structAEx : StructDefinition :=
  { name := "A", fields := [{ name := "x", type_name := "B" }] }

/-- A struct `B { y: A }`, closing the cycle. -/
def structBEx : StructDefinition :=
  { name := "B", fields := [{ name := "y", type_name := "A" }] }

/-- A schema whose struct reference graph has the cycle A → B → A. -/
def cyclicAstEx : SchemaAST := { fields := [], structs := [structAEx, structBEx] }

/-- An acyclic schema: one struct-typed top-level field expanding into
dotted paths, one scalar field. -/
def acyclicAstEx : SchemaAST :=
  { fields := [{ name := "order", type_name := "Address" },
               { name := "amount", type_name := "int" }],
    structs := [{ name := "Address",
                  fields := [{ name := "city", type_name := "str" }] }] }

/-! ## Rule-order optimization (amino/runtime/engine.py) -/

/-- Python `str.count(sub)` for the non-empty patterns the complexity
estimator uses: non-overlapping occurrences, scanning left to right.
The fuel argument (instantiated with the text's length, which bounds
the number of scan steps) keeps the recursion structural. -/
def countSubAux (pat : List Char) : Nat → List Char → Nat
  | 0, _ => 0
  | _ + 1, [] => 0
  | fuel + 1, c :: rest =>
    if pat.isPrefixOf (c :: rest) then
      1 + countSubAux pat fuel ((c :: rest).drop pat.length)
    else countSubAux pat fuel rest

/-- `text.count(pat)` over strings. -/
def strCount (s pat : String) : Nat :=
  countSubAux pat.data s.data.length s.data

/-- `text.lower()`, per-character (the estimator's patterns are
ASCII). -/
def toLowerStr (s : String) : String := String.mk (s.data.map Char.toLower)

/-- `RuleEngine._estimate_rule_complexity` of amino/runtime/engine.py,
applied to the text it actually receives:
`getattr(rule, 'rule_text', str(rule))`.  `CompiledRule`
(amino/rules/compiler.py, the class the compiled list holds) has no
`rule_text` attribute, so the text is always `str(rule)` — CPython's
default object repr `<amino.rules.compiler.CompiledRule object at
0x...>`, which depends on the object's runtime address, not on the
rule. -/
def estimateRuleComplexity (rule_text : String) : Nat :=
  1 + strCount (toLowerStr rule_text) " and " * 2
    + strCount (toLowerStr rule_text) " or " * 2
    + strCount rule_text "(" * 3
    + strCount rule_text "." * 1
    + rule_text.length / 20

/-- `RuleEngine._optimize_rule_order` of amino/runtime/engine.py:
identity on an empty list, in FIRST mode with an ordering key, and in
every non-FIRST mode; in FIRST mode without an ordering key the
compiled rules are re-sorted (Python's stable `sorted`, embedded as
`mergeSort`) by `_estimate_rule_complexity` of each rule's text.  A
compiled rule's text is its default repr, fixed by the runtime and not
derivable from the rule; it enters as the oracle `reprOf`. -/
def optimizeRuleOrder (reprOf : CompiledRule → String)
    (rules : List CompiledRule) (opts : MatchOptions) :
    List CompiledRule :=
  if rules.isEmpty then rules
  else if opts.mode == .FIRST && opts.ordering_key.isSome then rules
  else if opts.mode == .FIRST then
    rules.mergeSort (fun a b =>
      Nat.ble (estimateRuleComplexity (reprOf a))
        (estimateRuleComplexity (reprOf b)))
  else rules

/-- A compiled rule `amount > 0` for the reorder demonstration. -/
def ruleAEx : CompiledRule :=
  ⟨"r1", .binary .GT (.var "amount" .int) (.lit (.int 0) .int) .bool⟩

/-- A compiled rule `amount > 100` for the reorder demonstration. -/
def ruleBEx : CompiledRule :=
  ⟨"r2", .binary .GT (.var "amount" .int) (.lit (.int 100) .int) .bool⟩

/-- A runtime repr assignment for the two demonstration rules: CPython
default reprs whose hex addresses print at different widths (both
shapes occur in practice; the repr is outside the program's control). -/
def reprEx : CompiledRule → String := fun r =>
  if r.rule_id == "r1" then
    "<amino.rules.compiler.CompiledRule object at 0x7f93b1c2d4e5f0>"
  else
    "<amino.rules.compiler.CompiledRule object at 0x55e1a2b3>"

/-! ## Theorems -/

/-- C1: for a compiled `and` (resp. `or`) node, a falsy (resp. truthy)
value of the left operand fully determines the result: the node
evaluates to exactly the left value for every right operand, including
one whose evaluation raises, so the verdict is reached without the
right operand's evaluation influencing it. -/
theorem and_or_short_circuit (l r : RuleNode) (ty : SchemaType)
    (data : Data) (fns : Funcs) (v : Value)
    (h : evalNode data fns l = .ok v) :
    (truthy v = false →
      evalNode data fns (.binary .AND l r ty) = .ok v) ∧
    (truthy v = true →
      evalNode data fns (.binary .OR l r ty) = .ok v) := by
  constructor <;> intro ht <;>
    simp [evalNode, h, ht, Bind.bind, Except.bind]

/-- Witness for C1: `0 and missing_var` returns `0` and
`1 or missing_var` returns `1` even though the right operand raises. -/
theorem and_or_short_circuit_witness :
    evalNode [] [] (.binary .AND (.lit (.int 0) .int) (.var "m" .int) .bool)
      = .ok (.int 0) ∧
    evalNode [] [] (.binary .OR (.lit (.int 1) .int) (.var "m" .int) .bool)
      = .ok (.int 1) :=
  ⟨(and_or_short_circuit _ _ _ _ _ _ (by simp [evalNode])).1 rfl,
   (and_or_short_circuit _ _ _ _ _ _ (by simp [evalNode])).2 rfl⟩

/-- C2: producing the per-rule verdict list never raises: every rule of
the batch yields a verdict, in order; a rule whose evaluation raises
(for any reason) contributes the falsy verdict `(rule_id, False)`, and
a rule whose evaluation succeeds contributes its value. -/
theorem rule_batch_evaluation_total (rules : List CompiledRule)
    (data : Data) (fns : Funcs) :
    ∃ out, evaluateRulesForData fns rules data = .ok out ∧
      List.Forall₂ (fun (r : CompiledRule) (p : String × Value) =>
          p.1 = r.rule_id ∧
          (∀ e, evalNode data fns r.root = .error e → p.2 = .bool false) ∧
          (∀ v, evalNode data fns r.root = .ok v → p.2 = v))
        rules out := by
  induction rules with
  | nil => exact ⟨[], rfl, .nil⟩
  | cons r rest ih =>
    obtain ⟨out, hout, hrel⟩ := ih
    cases hev : evalNode data fns r.root with
    | ok v =>
      refine ⟨(r.rule_id, v) :: out, ?_, ?_⟩
      · simp [evaluateRulesForData, evaluateSingle, CompiledRule.evaluate,
          hev, hout, Bind.bind, Except.bind]
      · exact List.Forall₂.cons
          ⟨rfl, fun e he => by simp [hev] at he,
            fun w hw => by
              simp only [hev, Except.ok.injEq] at hw
              exact hw⟩ hrel
    | error e =>
      refine ⟨(r.rule_id, .bool false) :: out, ?_, ?_⟩
      · simp [evaluateRulesForData, evaluateSingle, CompiledRule.evaluate,
          hev, hout, Bind.bind, Except.bind]
      · exact List.Forall₂.cons
          ⟨rfl, fun _ _ => rfl, fun w hw => by simp [hev] at hw⟩ hrel

/-- Witness for C2: a batch with one raising rule (missing variable)
and one succeeding rule yields both verdicts, the raising one falsy. -/
theorem rule_batch_evaluation_total_witness :
    ∃ out,
      evaluateRulesForData []
        [⟨"a", .var "x" .int⟩, ⟨"b", .lit (.bool true) .bool⟩] [] =
        .ok out ∧ out.length = 2 := by
  obtain ⟨out, hout, hrel⟩ :=
    rule_batch_evaluation_total
      [⟨"a", .var "x" .int⟩, ⟨"b", .lit (.bool true) .bool⟩] [] []
  exact ⟨out, hout, by simp [← hrel.length_eq]⟩

/-- C3: the claim states that a decision without an `id` is accepted
and the id is optional, but `CompiledRules.eval` in the tree raises
`ValueError` for exactly that input (while echoing the id whenever one
is present), contradicting the spec and the repository's own tests. -/
theorem eval_rejects_idless_decision :
    CompiledRulesL.eval
      ⟨[⟨"r1", .lit (.bool true) .bool⟩], [], {}, []⟩
      [[("amount", .int 100)]] = .error .valueError ∧
    CompiledRulesL.eval
      ⟨[⟨"r1", .lit (.bool true) .bool⟩], [], {}, []⟩
      [[("id", .int 7), ("amount", .int 100)]] =
      .ok [⟨.int 7, ["r1"], none⟩] := by
  constructor <;>
    simp [CompiledRulesL.eval, evaluateRulesForData, evaluateSingle,
      CompiledRule.evaluate, evalNode, processMatches, truthy,
      Value.isNone, List.lookup, List.mapM, List.mapM.loop,
      Bind.bind, Except.bind, Pure.pure, Except.pure, matchedIds]

/-- Helper: the bucket of `token` after `bucketAppend` is the old
bucket with `op` appended. -/
theorem lookup_bucketAppend (bt : List (String × List OperatorDef))
    (token : String) (op : OperatorDef) :
    (bucketAppend bt token op).lookup token =
      some ((bt.lookup token).getD [] ++ [op]) := by
  induction bt with
  | nil => simp [bucketAppend, List.lookup]
  | cons kv rest ih =>
    obtain ⟨k, ops⟩ := kv
    by_cases hk : k = token
    · subst hk
      simp [bucketAppend, List.lookup]
    · have hne : (token == k) = false := beq_false_of_ne (fun h => hk h.symm)
      simpa [bucketAppend, hk, List.lookup, hne] using ih

/-- C7: registering an operator whose token and operand-type tuple
match an existing definition raises `OperatorConflictError` (before any
mutation, so the registry is unchanged); with no such clash — in
particular, same token but a different tuple — registration succeeds
and the new definition is afterwards returned by lookup on its token
and exact tuple, exact match taking precedence over any wildcard
candidate. -/
theorem operator_register_conflict_and_lookup (reg : OperatorRegistry)
    (op : OperatorDef) :
    ((∃ existing ∈ reg.candidates op.token,
        existing.input_types = op.input_types) →
      reg.register op = .error .operatorConflict) ∧
    ((∀ existing ∈ reg.candidates op.token,
        existing.input_types ≠ op.input_types) →
      ∃ reg2, reg.register op = .ok reg2 ∧
        reg2.lookup_by_types op.token op.input_types = some op) := by
  constructor
  · rintro ⟨existing, hmem, heq⟩
    have hsome : ((reg.candidates op.token).find?
        (fun ex => ex.input_types == op.input_types)).isSome := by
      rw [List.find?_isSome]
      exact ⟨existing, hmem, by simp [heq]⟩
    unfold OperatorRegistry.register
    obtain ⟨ex, hex⟩ := Option.isSome_iff_exists.mp hsome
    simp [hex]
  · intro hnone
    have hfind : (reg.candidates op.token).find?
        (fun ex => ex.input_types == op.input_types) = none := by
      rw [List.find?_eq_none]
      intro x hx
      simpa using hnone x hx
    refine ⟨{ by_token := bucketAppend reg.by_token op.token op
              symbols :=
                if strTruthy op.symbol then
                  addToSet reg.symbols (op.symbol.getD "")
                else reg.symbols
              keywords :=
                if strTruthy op.symbol then reg.keywords
                else addToSet reg.keywords op.keyword }, ?_, ?_⟩
    · unfold OperatorRegistry.register
      simp [hfind]
    · unfold OperatorRegistry.lookup_by_types
      have hc : OperatorRegistry.candidates
          { by_token := bucketAppend reg.by_token op.token op
            symbols :=
              if strTruthy op.symbol then
                addToSet reg.symbols (op.symbol.getD "")
              else reg.symbols
            keywords :=
              if strTruthy op.symbol then reg.keywords
              else addToSet reg.keywords op.keyword } op.token =
          reg.candidates op.token ++ [op] := by
        unfold OperatorRegistry.candidates
        simp [lookup_bucketAppend]
      rw [hc]
      simp [List.find?_append, hfind, List.find?_cons]

/-- Witness for C7: re-registering `=` over `(*, *)` clashes; the same
token over `(Int, Int)` registers and is found by exact lookup. -/
theorem operator_register_conflict_and_lookup_witness :
    OperatorRegistry.register
      { by_token :=
          [("=", [{ fn := some 0, binding_power := 40, symbol := some "=" }])],
        symbols := ["="], keywords := [] }
      { fn := some 1, binding_power := 40, symbol := some "=" } =
      .error .operatorConflict ∧
    ∃ reg2,
      OperatorRegistry.register
        { by_token :=
            [("=", [{ fn := some 0, binding_power := 40, symbol := some "=" }])],
          symbols := ["="], keywords := [] }
        { fn := some 2, binding_power := 40, symbol := some "=",
          input_types := ["Int", "Int"] } = .ok reg2 ∧
      reg2.lookup_by_types "=" ["Int", "Int"] =
        some { fn := some 2, binding_power := 40, symbol := some "=",
               input_types := ["Int", "Int"] } := by
  constructor
  · exact (operator_register_conflict_and_lookup _ _).1 (by decide)
  · exact (operator_register_conflict_and_lookup _ _).2 (by decide)

/-- Helper: `dictSet` binds the written key. -/
theorem lookup_dictSet_self {α : Type} (m : List (String × α))
    (k : String) (v : α) : (dictSet m k v).lookup k = some v := by
  induction m with
  | nil => simp [dictSet, List.lookup]
  | cons kv rest ih =>
    obtain ⟨k0, v0⟩ := kv
    by_cases hk : k0 = k
    · subst hk
      simp [dictSet, List.lookup]
    · have hne : (k == k0) = false := beq_false_of_ne (fun h => hk h.symm)
      simpa [dictSet, hk, List.lookup, hne] using ih

/-- Helper: `dictSet` leaves other keys unchanged. -/
theorem lookup_dictSet_ne {α : Type} (m : List (String × α))
    (k m' : String) (v : α) (h : m' ≠ k) :
    (dictSet m k v).lookup m' = m.lookup m' := by
  induction m with
  | nil => simp [dictSet, List.lookup, beq_false_of_ne h]
  | cons kv rest ih =>
    obtain ⟨k0, v0⟩ := kv
    by_cases hk : k0 = k
    · subst hk
      simp [dictSet, List.lookup, beq_false_of_ne h]
    · by_cases hm : m' = k0
      · subst hm
        simp [dictSet, hk, List.lookup]
      · have hne : (m' == k0) = false := beq_false_of_ne hm
        simpa [dictSet, hk, List.lookup, hne] using ih

/-- Helper: a successful `find?` splits the list at the first hit. -/
theorem find?_split {α : Type} (p : α → Bool) (l : List α) (a : α)
    (h : l.find? p = some a) :
    ∃ ys zs, l = ys ++ a :: zs ∧ ∀ y ∈ ys, p y = false := by
  induction l with
  | nil => simp [List.find?] at h
  | cons b t ih =>
    cases hp : p b with
    | true =>
      rw [List.find?_cons_of_pos _ hp] at h
      obtain rfl : b = a := by simpa using h
      exact ⟨[], t, rfl, by simp⟩
    | false =>
      rw [List.find?_cons_of_neg _ (by simp [hp])] at h
      obtain ⟨ys, zs, hsplit, hys⟩ := ih h
      exact ⟨b :: ys, zs, by simp [hsplit], by
        intro y hy
        rcases List.mem_cons.mp hy with rfl | hy'
        · exact hp
        · exact hys y hy'⟩

/-- Helper: the head of a stable sort (total, transitive comparison) is
the first element of the input that compares `le` to every element:
exactly "minimal, ties broken by input order". -/
theorem find?_min_of_mergeSort {α : Type} [DecidableEq α]
    (le : α → α → Bool)
    (htrans : ∀ a b c, le a b → le b c → le a c)
    (htotal : ∀ a b, le a b || le b a)
    (xs : List α) (a : α) (rest : List α)
    (h : xs.mergeSort le = a :: rest) :
    xs.find? (fun c => xs.all (fun b => le c b)) = some a := by
  have hmem : a ∈ xs := by
    have h2 : a ∈ xs.mergeSort le := by
      rw [h]
      exact List.mem_cons_self a rest
    exact List.mem_mergeSort.mp h2
  have hsorted := List.sorted_mergeSort htrans htotal xs
  rw [h] at hsorted
  have hle : ∀ b ∈ xs, le a b = true := by
    intro b hb
    have hb' : b ∈ a :: rest := by
      rw [← h, List.mem_mergeSort]
      exact hb
    rcases List.mem_cons.mp hb' with rfl | hb''
    · have := htotal b b
      simpa using this
    · exact (List.pairwise_cons.mp hsorted).1 b hb''
  have hp : (xs.all (fun b => le a b)) = true := List.all_eq_true.mpr hle
  cases hfind : xs.find? (fun c => xs.all (fun b => le c b)) with
  | none =>
    exfalso
    rw [List.find?_eq_none] at hfind
    exact (hfind a hmem) hp
  | some m =>
    by_cases heq : m = a
    · rw [heq]
    exfalso
    have hpm0 := List.find?_some hfind
    have hpm : (xs.all (fun b => le m b)) = true := by simpa using hpm0
    obtain ⟨ys, zs, hsplit, hys⟩ := find?_split _ _ _ hfind
    have hays : a ∉ ys := by
      intro ha
      have hfalse := hys a ha
      rw [hp] at hfalse
      simp at hfalse
    have hazs : a ∈ zs := by
      have hxs : a ∈ ys ++ m :: zs := hsplit ▸ hmem
      rcases List.mem_append.mp hxs with hy | hmz
      · exact absurd hy hays
      · rcases List.mem_cons.mp hmz with rfl | hz
        · exact absurd rfl (fun h => heq h.symm)
        · exact hz
    have hma : le m a = true := List.all_eq_true.mp hpm a hmem
    have hcnt0 : 0 < xs.count a := List.count_pos_iff.mpr hmem
    have hcys : xs.count a = zs.count a := by
      rw [hsplit, List.count_append, List.count_cons,
        List.count_eq_zero.mpr hays]
      simp [beq_false_of_ne heq]
    have hsubrep : (List.replicate (xs.count a) a).Sublist zs := by
      rw [← List.le_count_iff_replicate_sublist, ← hcys]
    have hsub : (m :: List.replicate (xs.count a) a).Sublist xs := by
      have h1 : (m :: List.replicate (xs.count a) a).Sublist (m :: zs) :=
        List.Sublist.cons₂ m hsubrep
      have h2 := h1.trans (List.sublist_append_right ys (m :: zs))
      rw [← hsplit] at h2
      exact h2
    have hpw : (m :: List.replicate (xs.count a) a).Pairwise
        (fun x y => le x y = true) := by
      rw [List.pairwise_cons]
      refine ⟨fun x hx => ?_, ?_⟩
      · rcases List.eq_of_mem_replicate hx with rfl
        exact hma
      · rw [List.pairwise_replicate]
        right
        have := htotal a a
        simpa using this
    have hstable := List.sublist_mergeSort htrans htotal hpw hsub
    rw [h] at hstable
    cases hstable with
    | cons₂ htail => exact heq rfl
    | cons x h' =>
      have hrep : (List.replicate (xs.count a) a).Sublist rest :=
        List.sublist_of_cons_sublist h'
      have hcount : xs.count a ≤ rest.count a := by
        have := hrep.count_le a
        simpa [List.count_replicate] using this
      have hperm := List.mergeSort_perm xs le
      rw [h] at hperm
      have htot : (a :: rest).count a = xs.count a := hperm.count_eq a
      rw [List.count_cons] at htot
      simp at htot
      omega

/-- Helper: the missing-key-as-`+inf` order is transitive. -/
theorem keyLE_trans (x y z : Option Int) (hxy : keyLE x y = true)
    (hyz : keyLE y z = true) : keyLE x z = true := by
  cases x <;> cases y <;> cases z <;> simp [keyLE] at * <;> omega

/-- Helper: the missing-key-as-`+inf` order is total. -/
theorem keyLE_total (x y : Option Int) : (keyLE x y || keyLE y x) = true := by
  cases x <;> cases y <;> simp [keyLE] <;> omega

/-- C5: in `all` mode the matcher returns exactly the rule ids whose
verdicts are truthy, in verdict-list order (the output is a subsequence
of the verdict ids); in `first` mode with an ordering key and a
nonempty truthy list it returns the single id that is the first one
whose metadata key value is minimal (ascending) or maximal
(descending), absent keys sorting as `+inf` — i.e. ties are broken by
rule-definition order. -/
theorem matcher_all_and_first_modes (opts : MatchOptions) (data_id : Value)
    (verdicts : List (String × Value)) (metadata : Metadata) :
    (opts.mode = .ALL →
      processMatches opts data_id verdicts metadata =
        .ok ⟨data_id, matchedIds verdicts, none⟩ ∧
      (matchedIds verdicts).Sublist (verdicts.map Prod.fst) ∧
      (∀ rid, rid ∈ matchedIds verdicts ↔
        ∃ v, (rid, v) ∈ verdicts ∧ truthy v = true)) ∧
    (∀ key, opts.mode = .FIRST → opts.ordering_key = some key →
      matchedIds verdicts ≠ [] →
      ∃ m, processMatches opts data_id verdicts metadata =
          .ok ⟨data_id, [m], none⟩ ∧
        (opts.ordering_direction = .asc →
          (matchedIds verdicts).find? (fun c => (matchedIds verdicts).all
            (fun b => keyLE (getOrderingValue metadata key c)
              (getOrderingValue metadata key b))) = some m) ∧
        (opts.ordering_direction = .desc →
          (matchedIds verdicts).find? (fun c => (matchedIds verdicts).all
            (fun b => keyLE (getOrderingValue metadata key b)
              (getOrderingValue metadata key c))) = some m)) := by
  constructor
  · intro hm
    refine ⟨by simp [processMatches, hm], ?_, ?_⟩
    · exact (List.filter_sublist _).map Prod.fst
    · intro rid
      constructor
      · intro hmem
        simp only [matchedIds, List.mem_map, List.mem_filter] at hmem
        obtain ⟨⟨r, v⟩, ⟨hvmem, htr⟩, hfst⟩ := hmem
        exact ⟨v, by simpa [← hfst] using hvmem, htr⟩
      · rintro ⟨v, hvmem, htr⟩
        simp only [matchedIds, List.mem_map, List.mem_filter]
        exact ⟨(rid, v), ⟨hvmem, htr⟩, rfl⟩
  · intro key hm hk hne
    cases hmatched : matchedIds verdicts with
    | nil => exact absurd hmatched hne
    | cons m0 rest0 =>
      cases hd : opts.ordering_direction with
      | asc =>
        cases hsort : (m0 :: rest0).mergeSort
            (fun a b => keyLE (getOrderingValue metadata key a)
              (getOrderingValue metadata key b)) with
        | nil =>
          have := congrArg List.length hsort
          simp at this
        | cons a rest =>
          refine ⟨a, ?_, fun _ => ?_, fun hcon => by simp [hd] at hcon⟩
          · simp only [processMatches, hm, hmatched, hk, sortRules, hd, hsort]
          · exact find?_min_of_mergeSort
              (fun c b => keyLE (getOrderingValue metadata key c)
                (getOrderingValue metadata key b))
              (fun x y z hxy hyz => keyLE_trans _ _ _ hxy hyz)
              (fun x y => keyLE_total _ _) _ _ _ hsort
      | desc =>
        cases hsort : (m0 :: rest0).mergeSort
            (fun a b => keyLE (getOrderingValue metadata key b)
              (getOrderingValue metadata key a)) with
        | nil =>
          have := congrArg List.length hsort
          simp at this
        | cons a rest =>
          refine ⟨a, ?_, fun hcon => by simp [hd] at hcon, fun _ => ?_⟩
          · simp only [processMatches, hm, hmatched, hk, sortRules, hd, hsort]
          · exact find?_min_of_mergeSort
              (fun c b => keyLE (getOrderingValue metadata key b)
                (getOrderingValue metadata key c))
              (fun x y z hxy hyz => keyLE_trans _ _ _ hyz hxy)
              (fun x y => keyLE_total _ _) _ _ _ hsort

/-- Witness for C5: three truthy rules with orderings 3, 1, 2 under
`first` / `ordering` / ascending yield exactly `["r2"]`. -/
theorem matcher_all_and_first_modes_witness :
    processMatches ⟨.FIRST, some "ordering", .asc⟩ (.str "d1")
      [("r1", .bool true), ("r2", .bool true), ("r3", .bool true)]
      [("r1", [("ordering", 3)]), ("r2", [("ordering", 1)]),
        ("r3", [("ordering", 2)])] =
      .ok ⟨.str "d1", ["r2"], none⟩ := by
  obtain ⟨m, hres, hasc, _⟩ :=
    (matcher_all_and_first_modes ⟨.FIRST, some "ordering", .asc⟩ (.str "d1")
      [("r1", .bool true), ("r2", .bool true), ("r3", .bool true)]
      [("r1", [("ordering", 3)]), ("r2", [("ordering", 1)]),
        ("r3", [("ordering", 2)])]).2
      "ordering" rfl rfl (by decide)
  have hfind := hasc rfl
  have hconc : ((matchedIds [("r1", .bool true), ("r2", .bool true),
      ("r3", .bool true)]).find? (fun c =>
        (matchedIds [("r1", .bool true), ("r2", .bool true),
          ("r3", .bool true)]).all
        (fun b => keyLE
          (getOrderingValue [("r1", [("ordering", 3)]), ("r2", [("ordering", 1)]),
            ("r3", [("ordering", 2)])] "ordering" c)
          (getOrderingValue [("r1", [("ordering", 3)]), ("r2", [("ordering", 1)]),
            ("r3", [("ordering", 2)])] "ordering" b)))) = some "r2" := by
    decide
  rw [hconc] at hfind
  obtain rfl : m = "r2" := (Option.some.inj hfind).symm
  exact hres

/-- Helper: evaluation of a binary node of a comparison or membership
operator evaluates both sides then applies the operation. -/
theorem evalNode_binary_cmp (op : Operator) (hA : op ≠ .AND)
    (hO : op ≠ .OR) (l r : RuleNode) (ty : SchemaType) (d : Data)
    (f : Funcs) :
    evalNode d f (.binary op l r ty) = (do
      let lv ← evalNode d f l
      let rv ← evalNode d f r
      pyBinOp op lv rv) := by
  cases op <;> first
    | exact absurd rfl hA
    | exact absurd rfl hO
    | simp [evalNode]

/-- Helper: evaluation of an `and` node. -/
theorem evalNode_binary_and (l r : RuleNode) (ty : SchemaType) (d : Data)
    (f : Funcs) :
    evalNode d f (.binary .AND l r ty) = (do
      let lv ← evalNode d f l
      if truthy lv then (evalNode d f r).map (fun rv => .bool (truthy rv))
      else .ok lv) := by
  simp [evalNode]

/-- Helper: evaluation of an `or` node. -/
theorem evalNode_binary_or (l r : RuleNode) (ty : SchemaType) (d : Data)
    (f : Funcs) :
    evalNode d f (.binary .OR l r ty) = (do
      let lv ← evalNode d f l
      if truthy lv then .ok lv
      else (evalNode d f r).map (fun rv => .bool (truthy rv))) := by
  simp [evalNode]

/-- Helper: evaluation of a `not` node. -/
theorem evalNode_unary_not (x : RuleNode) (ty : SchemaType) (d : Data)
    (f : Funcs) :
    evalNode d f (.unary .NOT x ty) = (do
      let xv ← evalNode d f x
      .ok (.bool (!truthy xv))) := by
  simp [evalNode]

/-- Helper: a unary node with any operator other than `not` raises
after evaluating its operand. -/
theorem evalNode_unary_ne_not (op : Operator) (hN : op ≠ .NOT)
    (x : RuleNode) (ty : SchemaType) (d : Data) (f : Funcs) :
    evalNode d f (.unary op x ty) = (do
      let _ ← evalNode d f x
      (.error .ruleEvaluation : Except PyErr Value)) := by
  cases op <;> first
    | exact absurd rfl hN
    | simp [evalNode]

/-- Helper: a literal node evaluates to its value. -/
theorem evalNode_isLit (x : RuleNode) (h : isLit x = true) (d : Data)
    (f : Funcs) : evalNode d f x = .ok (litVal x) := by
  cases x <;> simp [isLit] at h <;> simp [evalNode, litVal]

/-- Helper: a `True`-literal node evaluates to `True`. -/
theorem litIsTrue_eval (x : RuleNode) (h : litIsTrue x = true) (d : Data)
    (f : Funcs) : evalNode d f x = .ok (.bool true) := by
  cases x with
  | lit v t =>
    cases v with
    | bool b => cases b <;> simp [litIsTrue] at h <;> simp [evalNode]
    | _ => simp [litIsTrue] at h
  | _ => simp [litIsTrue] at h

/-- Helper: a `False`-literal node evaluates to `False`. -/
theorem litIsFalse_eval (x : RuleNode) (h : litIsFalse x = true) (d : Data)
    (f : Funcs) : evalNode d f x = .ok (.bool false) := by
  cases x with
  | lit v t =>
    cases v with
    | bool b => cases b <;> simp [litIsFalse] at h <;> simp [evalNode]
    | _ => simp [litIsFalse] at h
  | _ => simp [litIsFalse] at h

/-- Helper: on a non-logical operator, a successful literal fold agrees
with the evaluator's binary operation (or returns the original node on
the two unused enum members). -/
theorem foldLiterals_sound (op : Operator) (lv rv : Value)
    (orig n2 : RuleNode) (hA : op ≠ .AND) (hO : op ≠ .OR)
    (h : foldLiterals op lv rv orig = .ok n2) :
    (∃ w, pyBinOp op lv rv = .ok w ∧ n2 = .lit w .bool) ∨ n2 = orig := by
  cases op with
  | EQ =>
    left
    exact ⟨.bool (pyEq lv rv), rfl, by simpa [foldLiterals] using h.symm⟩
  | NE =>
    left
    exact ⟨.bool (!pyEq lv rv), rfl, by simpa [foldLiterals] using h.symm⟩
  | GT =>
    cases hlt : pyLt rv lv with
    | error e => simp [foldLiterals, hlt, Except.map] at h
    | ok b =>
      left
      refine ⟨.bool b, by simp [pyBinOp, hlt, Except.map], ?_⟩
      simp [foldLiterals, hlt, Except.map] at h
      exact h.symm
  | LT =>
    cases hlt : pyLt lv rv with
    | error e => simp [foldLiterals, hlt, Except.map] at h
    | ok b =>
      left
      refine ⟨.bool b, by simp [pyBinOp, hlt, Except.map], ?_⟩
      simp [foldLiterals, hlt, Except.map] at h
      exact h.symm
  | GTE =>
    cases hlt : pyLt lv rv with
    | error e => simp [foldLiterals, hlt, Except.map] at h
    | ok b =>
      left
      refine ⟨.bool (!b), by simp [pyBinOp, hlt, Except.map], ?_⟩
      simp [foldLiterals, hlt, Except.map] at h
      exact h.symm
  | LTE =>
    cases hlt : pyLt rv lv with
    | error e => simp [foldLiterals, hlt, Except.map] at h
    | ok b =>
      left
      refine ⟨.bool (!b), by simp [pyBinOp, hlt, Except.map], ?_⟩
      simp [foldLiterals, hlt, Except.map] at h
      exact h.symm
  | IN =>
    cases hin : pyIn lv rv with
    | error e => simp [foldLiterals, hin, Except.map] at h
    | ok b =>
      left
      refine ⟨.bool b, by simp [pyBinOp, hin, Except.map], ?_⟩
      simp [foldLiterals, hin, Except.map] at h
      exact h.symm
  | NOT_IN =>
    cases hin : pyIn lv rv with
    | error e => simp [foldLiterals, hin, Except.map] at h
    | ok b =>
      left
      refine ⟨.bool (!b), by simp [pyBinOp, hin, Except.map], ?_⟩
      simp [foldLiterals, hin, Except.map] at h
      exact h.symm
  | AND => exact absurd rfl hA
  | OR => exact absurd rfl hO
  | NOT => exact Or.inr (by simpa [foldLiterals] using h.symm)
  | TYPEOF => exact Or.inr (by simpa [foldLiterals] using h.symm)
  | IS_VALID => exact Or.inr (by simpa [foldLiterals] using h.symm)

/-- Helper: closed form of the binary optimization for non-logical
operators — fold two literals, otherwise rebuild the node. -/
theorem optimizeBinary_cmp_eq (op : Operator) (hA : op ≠ .AND)
    (hO : op ≠ .OR) (left right orig : RuleNode) (ty : SchemaType) :
    optimizeBinary op left right orig ty =
      if isLit left && isLit right then
        foldLiterals op (litVal left) (litVal right) orig
      else .ok (.binary op left right ty) := by
  cases op <;> first
    | exact absurd rfl hA
    | exact absurd rfl hO
    | (cases left <;> cases right <;> rfl)

/-- Helper: closed form of the binary optimization for `and`. -/
theorem optimizeBinary_and_eq (left right orig : RuleNode)
    (ty : SchemaType) :
    optimizeBinary .AND left right orig ty =
      if isLit left && isLit right then
        foldLiterals .AND (litVal left) (litVal right) orig
      else if litIsTrue left then .ok right
      else if litIsFalse left then .ok (.lit (.bool false) .bool)
      else if litIsTrue right then .ok left
      else if litIsFalse right then .ok (.lit (.bool false) .bool)
      else .ok (.binary .AND left right ty) := by
  cases left <;> cases right <;> rfl

/-- Helper: closed form of the binary optimization for `or`. -/
theorem optimizeBinary_or_eq (left right orig : RuleNode)
    (ty : SchemaType) :
    optimizeBinary .OR left right orig ty =
      if isLit left && isLit right then
        foldLiterals .OR (litVal left) (litVal right) orig
      else if litIsTrue left then .ok (.lit (.bool true) .bool)
      else if litIsFalse left then .ok right
      else if litIsTrue right then .ok (.lit (.bool true) .bool)
      else if litIsFalse right then .ok left
      else .ok (.binary .OR left right ty) := by
  cases left <;> cases right <;> rfl

/-- Helper: the unary optimization is the identity rebuild for
operators other than `not`. -/
theorem optimizeUnary_ne_not (op : Operator) (hN : op ≠ .NOT)
    (operand : RuleNode) (ty : SchemaType) :
    optimizeUnary op operand ty = .ok (.unary op operand ty) := by
  cases op <;> first
    | exact absurd rfl hN
    | (cases operand <;> rfl)

/-- Helper: the three possible outcomes of the `not` optimization. -/
theorem optimizeUnary_not_spec (x2 : RuleNode) (ty : SchemaType) :
    (∃ b t, x2 = .lit (.bool b) t ∧
      optimizeUnary .NOT x2 ty = .ok (.lit (.bool (!b)) .bool)) ∨
    (∃ y t2, x2 = .unary .NOT y t2 ∧ optimizeUnary .NOT x2 ty = .ok y) ∨
    optimizeUnary .NOT x2 ty = .ok (.unary .NOT x2 ty) := by
  cases x2 with
  | lit v t =>
    cases v with
    | bool b => exact Or.inl ⟨b, t, rfl, rfl⟩
    | none => exact Or.inr (Or.inr rfl)
    | int n => exact Or.inr (Or.inr rfl)
    | str s => exact Or.inr (Or.inr rfl)
    | list xs => exact Or.inr (Or.inr rfl)
    | dict fs => exact Or.inr (Or.inr rfl)
  | unary op2 y t2 =>
    cases op2 with
    | NOT => exact Or.inr (Or.inl ⟨y, t2, rfl, rfl⟩)
    | _ => exact Or.inr (Or.inr rfl)
  | var nm t => exact Or.inr (Or.inr rfl)
  | binary op2 l2 r2 t => exact Or.inr (Or.inr rfl)
  | funcCall nm args t => exact Or.inr (Or.inr rfl)

/-- Helper: fuel-indexed form of value preservation on logic-free
nodes, for strong induction over the (nested) rule AST. -/
theorem optimize_lf_eval_aux (d : Data) (f : Funcs) :
    ∀ (k : Nat) (n n2 : RuleNode), sizeOf n ≤ k → lf n = true →
      optimizeNode n = .ok n2 → evalNode d f n2 = evalNode d f n := by
  intro k
  induction k with
  | zero =>
    intro n n2 hsz
    cases n <;> simp_arith at hsz
  | succ k ih =>
    intro n n2 hsz hlf hopt
    cases n with
    | lit v ty =>
      simp [optimizeNode] at hopt
      rw [← hopt]
    | var name ty =>
      simp [optimizeNode] at hopt
      rw [← hopt]
    | funcCall name args ty =>
      simp [optimizeNode] at hopt
      rw [← hopt]
    | binary op l r ty =>
      have hszl : sizeOf l ≤ k := by simp_arith at hsz; omega
      have hszr : sizeOf r ≤ k := by simp_arith at hsz; omega
      have hops : op ≠ .AND ∧ op ≠ .OR ∧ lf l = true ∧ lf r = true := by
        cases op <;> simp [lf] at hlf <;>
          exact ⟨by simp, by simp, hlf.1, hlf.2⟩
      obtain ⟨hA, hO, hl, hr⟩ := hops
      cases hL : optimizeNode l with
      | error e => simp [optimizeNode, hL, Bind.bind, Except.bind] at hopt
      | ok left =>
      cases hR : optimizeNode r with
      | error e => simp [optimizeNode, hL, hR, Bind.bind, Except.bind] at hopt
      | ok right =>
        simp only [optimizeNode, hL, hR, Bind.bind, Except.bind] at hopt
        rw [optimizeBinary_cmp_eq op hA hO] at hopt
        have hIl := ih l left hszl hl hL
        have hIr := ih r right hszr hr hR
        by_cases hlit : (isLit left && isLit right) = true
        · rw [if_pos hlit] at hopt
          have hall : isLit left = true := (Bool.and_eq_true _ _ |>.mp hlit).1
          have halr : isLit right = true := (Bool.and_eq_true _ _ |>.mp hlit).2
          rcases foldLiterals_sound op (litVal left) (litVal right) _ n2 hA hO
              hopt with ⟨w, hw, rfl⟩ | rfl
          · rw [evalNode_binary_cmp op hA hO, ← hIl, ← hIr,
              evalNode_isLit left hall, evalNode_isLit right halr]
            simp [evalNode, Bind.bind, Except.bind, hw]
          · rfl
        · rw [if_neg hlit] at hopt
          obtain rfl : n2 = .binary op left right ty := by
            simpa using hopt.symm
          rw [evalNode_binary_cmp op hA hO, evalNode_binary_cmp op hA hO,
            hIl, hIr]
    | unary op x ty =>
      have hszx : sizeOf x ≤ k := by simp_arith at hsz; omega
      have hops : op ≠ .NOT ∧ lf x = true := by
        cases op <;> simp [lf] at hlf <;> exact ⟨by simp, hlf⟩
      obtain ⟨hN, hx⟩ := hops
      cases hX : optimizeNode x with
      | error e => simp [optimizeNode, hX, Bind.bind, Except.bind] at hopt
      | ok x2 =>
        simp only [optimizeNode, hX, Bind.bind, Except.bind] at hopt
        rw [optimizeUnary_ne_not op hN] at hopt
        obtain rfl : n2 = .unary op x2 ty := by simpa using hopt.symm
        have hIx := ih x x2 hszx hx hX
        rw [evalNode_unary_ne_not op hN, evalNode_unary_ne_not op hN, hIx]

/-- Helper: on logic-free nodes the optimizer is value-preserving — a
successfully optimized node evaluates to exactly the same result
(value or exception) as the original, on every record. -/
theorem optimize_lf_eval (d : Data) (f : Funcs) (n n2 : RuleNode)
    (hlf : lf n = true) (hopt : optimizeNode n = .ok n2) :
    evalNode d f n2 = evalNode d f n :=
  optimize_lf_eval_aux d f (sizeOf n) n n2 (Nat.le_refl _) hlf hopt

/-- Helper: truthiness of a wrapped boolean. -/
@[simp] theorem truthy_bool (b : Bool) : truthy (.bool b) = b := rfl

/-- Helper: fuel-indexed truthiness preservation on well-structured
nodes. -/
theorem optimize_ws_truthy_aux (d : Data) (f : Funcs) :
    ∀ (k : Nat) (n n2 : RuleNode), sizeOf n ≤ k → ws n = true →
      optimizeNode n = .ok n2 → ∀ v, evalNode d f n = .ok v →
      ∃ v2, evalNode d f n2 = .ok v2 ∧ truthy v2 = truthy v := by
  intro k
  induction k with
  | zero =>
    intro n n2 hsz
    cases n <;> simp_arith at hsz
  | succ k ih =>
    intro n n2 hsz hws hopt v heval
    cases n with
    | lit v0 ty =>
      simp [optimizeNode] at hopt
      rw [← hopt]
      exact ⟨v, heval, rfl⟩
    | var name ty =>
      simp [optimizeNode] at hopt
      rw [← hopt]
      exact ⟨v, heval, rfl⟩
    | funcCall name args ty =>
      simp [optimizeNode] at hopt
      rw [← hopt]
      exact ⟨v, heval, rfl⟩
    | unary op x ty =>
      have hszx : sizeOf x ≤ k := by simp_arith at hsz; omega
      have hwx : ws x = true := by simpa [ws] using hws
      by_cases hN : op = .NOT
      case neg =>
        rw [evalNode_unary_ne_not op hN] at heval
        cases hevx : evalNode d f x <;>
          rw [hevx] at heval <;>
          simp [Bind.bind, Except.bind] at heval
      case pos =>
        subst hN
        cases hX : optimizeNode x with
        | error e => simp [optimizeNode, hX, Bind.bind, Except.bind] at hopt
        | ok x2 =>
          simp only [optimizeNode, hX, Bind.bind, Except.bind] at hopt
          rw [evalNode_unary_not] at heval
          cases hevx : evalNode d f x with
          | error e =>
            rw [hevx] at heval
            simp [Bind.bind, Except.bind] at heval
          | ok a =>
            rw [hevx] at heval
            simp only [Bind.bind, Except.bind, Except.ok.injEq] at heval
            have hv : v = .bool (!truthy a) := heval.symm
            subst hv
            obtain ⟨a2, ha2, hta⟩ := ih x x2 hszx hwx hX a hevx
            rcases optimizeUnary_not_spec x2 ty with
              ⟨b, t, rfl, hopt2⟩ | ⟨y, t2, rfl, hopt2⟩ | hopt2
            · rw [hopt2] at hopt
              obtain rfl : n2 = .lit (.bool (!b)) .bool := by
                simpa using hopt.symm
              have hab : (Value.bool b) = a2 := by
                have := evalNode_isLit (.lit (.bool b) t) rfl d f
                rw [this] at ha2
                simpa using ha2
              refine ⟨.bool (!b), by simp [evalNode], ?_⟩
              rw [← hab] at hta
              simp at hta ⊢
              rw [hta]
            · rw [hopt2] at hopt
              obtain rfl : y = n2 := by simpa using hopt
              rw [evalNode_unary_not] at ha2
              cases hevy : evalNode d f y with
              | error e =>
                rw [hevy] at ha2
                simp [Bind.bind, Except.bind] at ha2
              | ok c =>
                rw [hevy] at ha2
                simp only [Bind.bind, Except.bind, Except.ok.injEq] at ha2
                refine ⟨c, rfl, ?_⟩
                rw [← ha2] at hta
                simp at hta
                simp [← hta]
            · rw [hopt2] at hopt
              obtain rfl : n2 = .unary .NOT x2 ty := by simpa using hopt.symm
              refine ⟨.bool (!truthy a2), ?_, ?_⟩
              · rw [evalNode_unary_not, ha2]
                rfl
              · simp [hta]
    | binary op l r ty =>
      have hszl : sizeOf l ≤ k := by simp_arith at hsz; omega
      have hszr : sizeOf r ≤ k := by simp_arith at hsz; omega
      by_cases hA : op = .AND
      · subst hA
        have hw2 : ws l = true ∧ ws r = true := by simpa [ws] using hws
        obtain ⟨hwl, hwr⟩ := hw2
        cases hL : optimizeNode l with
        | error e => simp [optimizeNode, hL, Bind.bind, Except.bind] at hopt
        | ok left =>
        cases hR : optimizeNode r with
        | error e =>
          simp [optimizeNode, hL, hR, Bind.bind, Except.bind] at hopt
        | ok right =>
          simp only [optimizeNode, hL, hR, Bind.bind, Except.bind] at hopt
          rw [optimizeBinary_and_eq] at hopt
          rw [evalNode_binary_and] at heval
          cases hevl : evalNode d f l with
          | error e =>
            rw [hevl] at heval
            simp [Bind.bind, Except.bind] at heval
          | ok a =>
            rw [hevl] at heval
            simp only [Bind.bind, Except.bind] at heval
            obtain ⟨a2, ha2, hta⟩ := ih l left hszl hwl hL a hevl
            by_cases hlit : (isLit left && isLit right) = true
            · rw [if_pos hlit] at hopt
              have hall : isLit left = true :=
                (Bool.and_eq_true _ _ |>.mp hlit).1
              have halr : isLit right = true :=
                (Bool.and_eq_true _ _ |>.mp hlit).2
              obtain rfl : n2 = .lit
                  (.bool (truthy (litVal left) && truthy (litVal right)))
                  .bool := by
                simpa [foldLiterals] using hopt.symm
              have hva : truthy (litVal left) = truthy a := by
                rw [evalNode_isLit left hall d f] at ha2
                have : litVal left = a2 := by simpa using ha2
                rw [this]
                exact hta
              cases htra : truthy a with
              | false =>
                rw [if_neg (by simp [htra])] at heval
                have hv : v = a := by simpa using heval.symm
                subst hv
                refine ⟨.bool (truthy (litVal left) && truthy (litVal right)),
                  by simp [evalNode], ?_⟩
                simp [hva, htra]
              | true =>
                rw [if_pos (by simp [htra])] at heval
                cases hevr : evalNode d f r with
                | error e =>
                  rw [hevr] at heval
                  simp [Except.map] at heval
                | ok b =>
                  rw [hevr] at heval
                  simp only [Except.map, Except.ok.injEq] at heval
                  have hv : v = .bool (truthy b) := heval.symm
                  subst hv
                  obtain ⟨b2, hb2, htb⟩ := ih r right hszr hwr hR b hevr
                  have hvb : truthy (litVal right) = truthy b := by
                    rw [evalNode_isLit right halr d f] at hb2
                    have : litVal right = b2 := by simpa using hb2
                    rw [this]
                    exact htb
                  refine ⟨.bool (truthy (litVal left) && truthy (litVal right)),
                    by simp [evalNode], ?_⟩
                  simp [hva, htra, hvb]
            · rw [if_neg hlit] at hopt
              by_cases h1 : litIsTrue left = true
              · rw [if_pos h1] at hopt
                obtain rfl : right = n2 := by simpa using hopt
                have htaT : truthy a = true := by
                  rw [litIsTrue_eval left h1 d f] at ha2
                  have : Value.bool true = a2 := by simpa using ha2
                  rw [← hta, ← this]
                  rfl
                rw [if_pos (by simp [htaT])] at heval
                cases hevr : evalNode d f r with
                | error e =>
                  rw [hevr] at heval
                  simp [Except.map] at heval
                | ok b =>
                  rw [hevr] at heval
                  simp only [Except.map, Except.ok.injEq] at heval
                  have hv : v = .bool (truthy b) := heval.symm
                  subst hv
                  obtain ⟨b2, hb2, htb⟩ := ih r right hszr hwr hR b hevr
                  exact ⟨b2, hb2, by simp [htb]⟩
              · rw [if_neg h1] at hopt
                by_cases h2 : litIsFalse left = true
                · rw [if_pos h2] at hopt
                  obtain rfl : n2 = .lit (.bool false) .bool := by
                    simpa using hopt.symm
                  have htaF : truthy a = false := by
                    rw [litIsFalse_eval left h2 d f] at ha2
                    have : Value.bool false = a2 := by simpa using ha2
                    rw [← hta, ← this]
                    rfl
                  rw [if_neg (by simp [htaF])] at heval
                  have hv : v = a := by simpa using heval.symm
                  subst hv
                  exact ⟨.bool false, by simp [evalNode],
                    by simp [htaF]⟩
                · rw [if_neg h2] at hopt
                  by_cases h3 : litIsTrue right = true
                  · rw [if_pos h3] at hopt
                    obtain rfl : left = n2 := by simpa using hopt
                    cases htra : truthy a with
                    | true =>
                      rw [if_pos (by simp [htra])] at heval
                      cases hevr : evalNode d f r with
                      | error e =>
                        rw [hevr] at heval
                        simp [Except.map] at heval
                      | ok b =>
                        rw [hevr] at heval
                        simp only [Except.map, Except.ok.injEq] at heval
                        have hv : v = .bool (truthy b) := heval.symm
                        subst hv
                        obtain ⟨b2, hb2, htb⟩ := ih r right hszr hwr hR b hevr
                        have htbT : truthy b = true := by
                          rw [litIsTrue_eval right h3 d f] at hb2
                          have : Value.bool true = b2 := by simpa using hb2
                          rw [← htb, ← this]
                          rfl
                        refine ⟨a2, ha2, ?_⟩
                        simp [htbT, hta, htra]
                    | false =>
                      rw [if_neg (by simp [htra])] at heval
                      have hv : v = a := by simpa using heval.symm
                      subst hv
                      exact ⟨a2, ha2, hta⟩
                  · rw [if_neg h3] at hopt
                    by_cases h4 : litIsFalse right = true
                    · rw [if_pos h4] at hopt
                      obtain rfl : n2 = .lit (.bool false) .bool := by
                        simpa using hopt.symm
                      cases htra : truthy a with
                      | true =>
                        rw [if_pos (by simp [htra])] at heval
                        cases hevr : evalNode d f r with
                        | error e =>
                          rw [hevr] at heval
                          simp [Except.map] at heval
                        | ok b =>
                          rw [hevr] at heval
                          simp only [Except.map, Except.ok.injEq] at heval
                          have hv : v = .bool (truthy b) := heval.symm
                          subst hv
                          obtain ⟨b2, hb2, htb⟩ :=
                            ih r right hszr hwr hR b hevr
                          have htbF : truthy b = false := by
                            rw [litIsFalse_eval right h4 d f] at hb2
                            have : Value.bool false = b2 := by simpa using hb2
                            rw [← htb, ← this]
                            rfl
                          exact ⟨.bool false, by simp [evalNode],
                            by simp [htbF]⟩
                      | false =>
                        rw [if_neg (by simp [htra])] at heval
                        have hv : v = a := by simpa using heval.symm
                        subst hv
                        exact ⟨.bool false, by simp [evalNode],
                          by simp [htra]⟩
                    · rw [if_neg h4] at hopt
                      obtain rfl : n2 = .binary .AND left right ty := by
                        simpa using hopt.symm
                      cases htra : truthy a with
                      | false =>
                        rw [if_neg (by simp [htra])] at heval
                        have hv : v = a := by simpa using heval.symm
                        subst hv
                        refine ⟨a2, ?_, hta⟩
                        rw [evalNode_binary_and, ha2]
                        simp only [Bind.bind, Except.bind]
                        rw [if_neg (by simp [hta, htra])]
                      | true =>
                        rw [if_pos (by simp [htra])] at heval
                        cases hevr : evalNode d f r with
                        | error e =>
                          rw [hevr] at heval
                          simp [Except.map] at heval
                        | ok b =>
                          rw [hevr] at heval
                          simp only [Except.map, Except.ok.injEq] at heval
                          have hv : v = .bool (truthy b) := heval.symm
                          subst hv
                          obtain ⟨b2, hb2, htb⟩ :=
                            ih r right hszr hwr hR b hevr
                          refine ⟨.bool (truthy b2), ?_, by simp [htb]⟩
                          rw [evalNode_binary_and, ha2]
                          simp only [Bind.bind, Except.bind]
                          rw [if_pos (by simp [hta, htra]), hb2]
                          simp [Except.map]
      · by_cases hO : op = .OR
        · subst hO
          have hw2 : ws l = true ∧ ws r = true := by simpa [ws] using hws
          obtain ⟨hwl, hwr⟩ := hw2
          cases hL : optimizeNode l with
          | error e => simp [optimizeNode, hL, Bind.bind, Except.bind] at hopt
          | ok left =>
          cases hR : optimizeNode r with
          | error e =>
            simp [optimizeNode, hL, hR, Bind.bind, Except.bind] at hopt
          | ok right =>
            simp only [optimizeNode, hL, hR, Bind.bind, Except.bind] at hopt
            rw [optimizeBinary_or_eq] at hopt
            rw [evalNode_binary_or] at heval
            cases hevl : evalNode d f l with
            | error e =>
              rw [hevl] at heval
              simp [Bind.bind, Except.bind] at heval
            | ok a =>
              rw [hevl] at heval
              simp only [Bind.bind, Except.bind] at heval
              obtain ⟨a2, ha2, hta⟩ := ih l left hszl hwl hL a hevl
              by_cases hlit : (isLit left && isLit right) = true
              · rw [if_pos hlit] at hopt
                have hall : isLit left = true :=
                  (Bool.and_eq_true _ _ |>.mp hlit).1
                have halr : isLit right = true :=
                  (Bool.and_eq_true _ _ |>.mp hlit).2
                obtain rfl : n2 = .lit
                    (.bool (truthy (litVal left) || truthy (litVal right)))
                    .bool := by
                  simpa [foldLiterals] using hopt.symm
                have hva : truthy (litVal left) = truthy a := by
                  rw [evalNode_isLit left hall d f] at ha2
                  have : litVal left = a2 := by simpa using ha2
                  rw [this]
                  exact hta
                cases htra : truthy a with
                | true =>
                  rw [if_pos (by simp [htra])] at heval
                  have hv : v = a := by simpa using heval.symm
                  subst hv
                  refine ⟨.bool (truthy (litVal left) || truthy (litVal right)),
                    by simp [evalNode], ?_⟩
                  simp [hva, htra]
                | false =>
                  rw [if_neg (by simp [htra])] at heval
                  cases hevr : evalNode d f r with
                  | error e =>
                    rw [hevr] at heval
                    simp [Except.map] at heval
                  | ok b =>
                    rw [hevr] at heval
                    simp only [Except.map, Except.ok.injEq] at heval
                    have hv : v = .bool (truthy b) := heval.symm
                    subst hv
                    obtain ⟨b2, hb2, htb⟩ := ih r right hszr hwr hR b hevr
                    have hvb : truthy (litVal right) = truthy b := by
                      rw [evalNode_isLit right halr d f] at hb2
                      have : litVal right = b2 := by simpa using hb2
                      rw [this]
                      exact htb
                    refine ⟨.bool (truthy (litVal left) || truthy (litVal right)),
                      by simp [evalNode], ?_⟩
                    simp [hva, htra, hvb]
              · rw [if_neg hlit] at hopt
                by_cases h1 : litIsTrue left = true
                · rw [if_pos h1] at hopt
                  obtain rfl : n2 = .lit (.bool true) .bool := by
                    simpa using hopt.symm
                  have htaT : truthy a = true := by
                    rw [litIsTrue_eval left h1 d f] at ha2
                    have : Value.bool true = a2 := by simpa using ha2
                    rw [← hta, ← this]
                    rfl
                  rw [if_pos (by simp [htaT])] at heval
                  have hv : v = a := by simpa using heval.symm
                  subst hv
                  exact ⟨.bool true, by simp [evalNode],
                    by simp [htaT]⟩
                · rw [if_neg h1] at hopt
                  by_cases h2 : litIsFalse left = true
                  · rw [if_pos h2] at hopt
                    obtain rfl : right = n2 := by simpa using hopt
                    have htaF : truthy a = false := by
                      rw [litIsFalse_eval left h2 d f] at ha2
                      have : Value.bool false = a2 := by simpa using ha2
                      rw [← hta, ← this]
                      rfl
                    rw [if_neg (by simp [htaF])] at heval
                    cases hevr : evalNode d f r with
                    | error e =>
                      rw [hevr] at heval
                      simp [Except.map] at heval
                    | ok b =>
                      rw [hevr] at heval
                      simp only [Except.map, Except.ok.injEq] at heval
                      have hv : v = .bool (truthy b) := heval.symm
                      subst hv
                      obtain ⟨b2, hb2, htb⟩ := ih r right hszr hwr hR b hevr
                      exact ⟨b2, hb2, by simp [htb]⟩
                  · rw [if_neg h2] at hopt
                    by_cases h3 : litIsTrue right = true
                    · rw [if_pos h3] at hopt
                      obtain rfl : n2 = .lit (.bool true) .bool := by
                        simpa using hopt.symm
                      cases htra : truthy a with
                      | true =>
                        rw [if_pos (by simp [htra])] at heval
                        have hv : v = a := by simpa using heval.symm
                        subst hv
                        exact ⟨.bool true, by simp [evalNode],
                          by simp [htra]⟩
                      | false =>
                        rw [if_neg (by simp [htra])] at heval
                        cases hevr : evalNode d f r with
                        | error e =>
                          rw [hevr] at heval
                          simp [Except.map] at heval
                        | ok b =>
                          rw [hevr] at heval
                          simp only [Except.map, Except.ok.injEq] at heval
                          have hv : v = .bool (truthy b) := heval.symm
                          subst hv
                          obtain ⟨b2, hb2, htb⟩ :=
                            ih r right hszr hwr hR b hevr
                          have htbT : truthy b = true := by
                            rw [litIsTrue_eval right h3 d f] at hb2
                            have : Value.bool true = b2 := by simpa using hb2
                            rw [← htb, ← this]
                            rfl
                          exact ⟨.bool true, by simp [evalNode],
                            by simp [htbT]⟩
                    · rw [if_neg h3] at hopt
                      by_cases h4 : litIsFalse right = true
                      · rw [if_pos h4] at hopt
                        obtain rfl : left = n2 := by simpa using hopt
                        cases htra : truthy a with
                        | true =>
                          rw [if_pos (by simp [htra])] at heval
                          have hv : v = a := by simpa using heval.symm
                          subst hv
                          exact ⟨a2, ha2, hta⟩
                        | false =>
                          rw [if_neg (by simp [htra])] at heval
                          cases hevr : evalNode d f r with
                          | error e =>
                            rw [hevr] at heval
                            simp [Except.map] at heval
                          | ok b =>
                            rw [hevr] at heval
                            simp only [Except.map, Except.ok.injEq] at heval
                            have hv : v = .bool (truthy b) := heval.symm
                            subst hv
                            obtain ⟨b2, hb2, htb⟩ :=
                              ih r right hszr hwr hR b hevr
                            have htbF : truthy b = false := by
                              rw [litIsFalse_eval right h4 d f] at hb2
                              have : Value.bool false = b2 := by
                                simpa using hb2
                              rw [← htb, ← this]
                              rfl
                            refine ⟨a2, ha2, ?_⟩
                            simp [htbF, hta, htra]
                      · rw [if_neg h4] at hopt
                        obtain rfl : n2 = .binary .OR left right ty := by
                          simpa using hopt.symm
                        cases htra : truthy a with
                        | true =>
                          rw [if_pos (by simp [htra])] at heval
                          have hv : v = a := by simpa using heval.symm
                          subst hv
                          refine ⟨a2, ?_, hta⟩
                          rw [evalNode_binary_or, ha2]
                          simp only [Bind.bind, Except.bind]
                          rw [if_pos (by simp [hta, htra])]
                        | false =>
                          rw [if_neg (by simp [htra])] at heval
                          cases hevr : evalNode d f r with
                          | error e =>
                            rw [hevr] at heval
                            simp [Except.map] at heval
                          | ok b =>
                            rw [hevr] at heval
                            simp only [Except.map, Except.ok.injEq] at heval
                            have hv : v = .bool (truthy b) := heval.symm
                            subst hv
                            obtain ⟨b2, hb2, htb⟩ :=
                              ih r right hszr hwr hR b hevr
                            refine ⟨.bool (truthy b2), ?_,
                              by simp [htb]⟩
                            rw [evalNode_binary_or, ha2]
                            simp only [Bind.bind, Except.bind]
                            rw [if_neg (by simp [hta, htra]), hb2]
                            simp [Except.map]
        · have hlfn : lf (.binary op l r ty) = true := by
            cases op <;> first
              | exact absurd rfl hA
              | exact absurd rfl hO
              | (simp [ws] at hws; simp [lf, hws])
          rw [optimize_lf_eval d f _ n2 hlfn hopt]
          exact ⟨v, heval, rfl⟩

/-- Counterexample to C10 as stated: on the rule AST
`(s and true) = true` with the decision `{s: 5}`, the original
evaluates to `True` (the inner `and` yields `bool(true) = True`), but
the optimizer rewrites `s and true` to `s`, and `5 = True` is `False` —
the optimized AST's verdict differs even though the original
evaluation raised nothing. -/
theorem optimizer_changes_verdict_counterexample :
    evalNode [("s", .int 5)] []
      (.binary .EQ
        (.binary .AND (.var "s" .int) (.lit (.bool true) .bool) .bool)
        (.lit (.bool true) .bool) .bool) = .ok (.bool true) ∧
    optimizeNode
      (.binary .EQ
        (.binary .AND (.var "s" .int) (.lit (.bool true) .bool) .bool)
        (.lit (.bool true) .bool) .bool) =
      .ok (.binary .EQ (.var "s" .int) (.lit (.bool true) .bool) .bool) ∧
    evalNode [("s", .int 5)] []
      (.binary .EQ (.var "s" .int) (.lit (.bool true) .bool) .bool) =
      .ok (.bool false) := by
  refine ⟨?_, ?_, ?_⟩ <;>
    first
      | rfl
      | (simp [evalNode, optimizeNode, optimizeBinary, optimizeUnary,
          foldLiterals, evalVariable, pyBinOp, pyEq, truthy, litIsTrue,
          litIsFalse, Bind.bind, Except.bind, List.lookup, asNum]; rfl)
      | simp [evalNode, optimizeNode, optimizeBinary, optimizeUnary,
          foldLiterals, evalVariable, pyBinOp, pyEq, truthy, litIsTrue,
          litIsFalse, Bind.bind, Except.bind, List.lookup, asNum]

/-- C10 (amended): for every well-structured rule AST — one in which
the logical operators `and` / `or` / `not` do not occur inside the
operands of comparison or membership operators (function-call
arguments are unrestricted; this is the shape the rule grammar
produces) — on which the optimizer succeeds, and for every decision
record and function registry on which the original compiled AST
evaluates without raising, the optimized AST evaluates to a value with
the same truthiness as the original, so both produce the same per-rule
verdict on every such decision. -/
theorem optimizer_preserves_truthiness_on_ws (n n2 : RuleNode)
    (hws : ws n = true) (hopt : optimizeNode n = .ok n2) (d : Data)
    (f : Funcs) (v : Value) (heval : evalNode d f n = .ok v) :
    ∃ v2, evalNode d f n2 = .ok v2 ∧ truthy v2 = truthy v :=
  optimize_ws_truthy_aux d f (sizeOf n) n n2 (Nat.le_refl _) hws hopt v heval

/-- Witness for C10 (amended): the well-structured rule
`amount > 0` (on which the optimizer is the identity) keeps its truthy
verdict on `{amount: 100}`. -/
theorem optimizer_preserves_truthiness_on_ws_witness :
    ∃ v2, evalNode [("amount", .int 100)] []
        (.binary .GT (.var "amount" .int) (.lit (.int 0) .int) .bool) =
        .ok v2 ∧
      truthy v2 = truthy (.bool true) := by
  refine optimizer_preserves_truthiness_on_ws
    (.binary .GT (.var "amount" .int) (.lit (.int 0) .int) .bool)
    (.binary .GT (.var "amount" .int) (.lit (.int 0) .int) .bool)
    rfl rfl [("amount", .int 100)] [] (.bool true) ?_
  simp [evalNode, evalVariable, pyBinOp, pyLt, List.lookup, asNum,
    Bind.bind, Except.bind]
  rfl

theorem structEdge_edgeB {structs : List StructDefinition} {a b : String}
    (h : structEdge structs a b) : edgeB structs a b = true := by
  obtain ⟨s, hs, f, hf, hft, hb⟩ := h
  unfold edgeB
  rw [hs]
  exact List.any_eq_true.2 ⟨f, hf, by simp [hft, hb]⟩

theorem structEdge_source_mem {structs : List StructDefinition} {a b : String}
    (h : structEdge structs a b) : a ∈ structs.map (fun s => s.name) := by
  obtain ⟨s, hs, -⟩ := h
  unfold structMapLookup at hs
  have h1 := List.find?_some hs
  have h2 : s ∈ structs := List.mem_reverse.1 (List.mem_of_find?_eq_some hs)
  have h3 : s.name = a := by simpa using h1
  exact h3 ▸ List.mem_map_of_mem _ h2

theorem isStructName_mem {structs : List StructDefinition} {b : String}
    (h : isStructName structs b = true) :
    b ∈ structs.map (fun s => s.name) := by
  unfold isStructName at h
  obtain ⟨s, hs⟩ := Option.isSome_iff_exists.1 h
  unfold structMapLookup at hs
  have h1 := List.find?_some hs
  have h2 : s ∈ structs := List.mem_reverse.1 (List.mem_of_find?_eq_some hs)
  have h3 : s.name = b := by simpa using h1
  exact h3 ▸ List.mem_map_of_mem _ h2

theorem structEdge_target_mem {structs : List StructDefinition} {a b : String}
    (h : structEdge structs a b) : b ∈ structs.map (fun s => s.name) := by
  obtain ⟨s, hs, f, hf, hft, hb⟩ := h
  exact isStructName_mem hb

theorem pathFrom_mem_names {structs : List StructDefinition} :
    ∀ (q : List String) (a x : String), pathFrom structs a q → x ∈ q →
      x ∈ structs.map (fun s => s.name)
  | [], _, _, _, hx => absurd hx (List.not_mem_nil _)
  | b :: p, a, x, ⟨he, hp⟩, hx => by
    rcases List.mem_cons.1 hx with rfl | hx2
    · exact structEdge_target_mem he
    · exact pathFrom_mem_names p b x hp hx2

theorem pathFrom_append (structs : List StructDefinition) :
    ∀ (q1 : List String) (a : String) (q2 : List String),
      pathFrom structs a (q1 ++ q2) ↔
        pathFrom structs a q1 ∧ pathFrom structs (q1.getLastD a) q2
  | [], a, q2 => by simp [pathFrom, List.getLastD]
  | b :: q1, a, q2 => by
    rw [List.getLastD_cons]
    show structEdge structs a b ∧ pathFrom structs b (q1 ++ q2) ↔
      (structEdge structs a b ∧ pathFrom structs b q1) ∧
        pathFrom structs (q1.getLastD b) q2
    rw [pathFrom_append structs q1 b q2]
    tauto

theorem getLastD_snoc {α : Type} (l : List α) (x d : α) :
    (l ++ [x]).getLastD d = x := by
  induction l generalizing d with
  | nil => rfl
  | cons y l ih => rw [List.cons_append, List.getLastD_cons, ih]

theorem pair_sublist_split {α : Type} (x : α) :
    ∀ (l : List α), List.Sublist [x, x] l →
      ∃ l1 l2 l3, l = l1 ++ x :: (l2 ++ x :: l3)
  | [], h => nomatch h
  | y :: l, h => by
    cases h with
    | cons _ h2 =>
      obtain ⟨l1, l2, l3, rfl⟩ := pair_sublist_split x l h2
      exact ⟨y :: l1, l2, l3, rfl⟩
    | cons₂ h2 =>
      rename_i h3
      have hx : x ∈ l := List.singleton_sublist.1 h3
      obtain ⟨l2, l3b, rfl⟩ := List.append_of_mem hx
      exact ⟨[], l2, l3b, rfl⟩

theorem long_list_has_dup {α : Type} [DecidableEq α]
    (l names : List α) (hsub : ∀ x ∈ l, x ∈ names)
    (hlen : names.length < l.length) :
    ∃ x, List.Sublist [x, x] l := by
  by_contra hno
  push_neg at hno
  have hnd : l.Nodup := by
    by_contra hnd
    obtain ⟨x, hx⟩ := List.exists_duplicate_iff_not_nodup.2 hnd
    exact hno x (List.duplicate_iff_sublist.1 hx)
  have h1 : l.toFinset.card = l.length := List.toFinset_card_of_nodup hnd
  have h2 : l.toFinset ⊆ names.toFinset := by
    intro x hx
    rw [List.mem_toFinset] at hx ⊢
    exact hsub x hx
  have h3 := Finset.card_le_card h2
  have h4 := names.toFinset_card_le
  omega

theorem reachF_of_path (structs : List StructDefinition) :
    ∀ (p : List String) (k : Nat) (a b : String),
      pathFrom structs a (p ++ [b]) → p.length + 1 ≤ k →
      reachF structs k a b = true
  | [], k, a, b, hp, hk => by
    obtain ⟨he, -⟩ := hp
    cases k with
    | zero => omega
    | succ k2 =>
      unfold reachF
      rw [structEdge_edgeB he]
      rfl
  | c :: p, k, a, b, hp, hk => by
    obtain ⟨he, hp2⟩ := hp
    cases k with
    | zero => simp at hk
    | succ k2 =>
      unfold reachF
      rw [Bool.or_eq_true]
      refine Or.inr (List.any_eq_true.2 ⟨c, structEdge_target_mem he, ?_⟩)
      rw [structEdge_edgeB he,
        reachF_of_path structs p k2 c b hp2 (by simp at hk ⊢; omega)]
      rfl

theorem cycle_shorten (structs : List StructDefinition) :
    ∀ (L : Nat) (a : String) (p : List String), p.length ≤ L →
      pathFrom structs a (p ++ [a]) →
      ∃ c q, q.length + 1 ≤ structs.length ∧
        pathFrom structs c (q ++ [c]) := by
  intro L
  induction L with
  | zero =>
    intro a p hL hp
    have hp0 : p = [] := List.eq_nil_of_length_eq_zero (by omega)
    subst hp0
    have he := hp.1
    have hne : structs.length ≠ 0 := by
      intro h0
      have := structEdge_source_mem he
      rw [List.eq_nil_of_length_eq_zero h0] at this
      exact absurd this (List.not_mem_nil _)
    exact ⟨a, [], by omega, hp⟩
  | succ L ih =>
    intro a p hL hp
    by_cases hshort : p.length + 1 ≤ structs.length
    · exact ⟨a, p, hshort, hp⟩
    · have hmem : ∀ x ∈ a :: p, x ∈ structs.map (fun s => s.name) := by
        intro x hx
        rcases List.mem_cons.1 hx with rfl | hx2
        · cases p with
          | nil => exact structEdge_source_mem hp.1
          | cons c p2 => exact structEdge_source_mem hp.1
        · exact pathFrom_mem_names (p ++ [a]) a x hp
            (List.mem_append_left _ hx2)
      obtain ⟨x, hxx⟩ := long_list_has_dup (a :: p)
        (structs.map (fun s => s.name)) hmem
        (by rw [List.length_map]; simp; omega)
      obtain ⟨l1, l2, l3, hsplit⟩ := pair_sublist_split x (a :: p) hxx
      cases l1 with
      | nil =>
        simp only [List.nil_append] at hsplit
        obtain ⟨rfl, rfl⟩ : a = x ∧ p = l2 ++ x :: l3 := by
          constructor <;> [exact (List.cons.injEq _ _ _ _ ▸ hsplit).1;
            exact (List.cons.injEq _ _ _ _ ▸ hsplit).2]
        have hq2 : pathFrom structs a ((l2 ++ [a]) ++ (l3 ++ [a])) := by
          rw [show (l2 ++ [a]) ++ (l3 ++ [a]) =
            (l2 ++ a :: l3) ++ [a] by simp]
          exact hp
        have h4 := ((pathFrom_append structs (l2 ++ [a]) a (l3 ++ [a])).1 hq2).1
        exact ih a l2 (by simp at hL ⊢; omega) h4
      | cons c l1t =>
        simp only [List.cons_append] at hsplit
        obtain ⟨rfl, rfl⟩ : a = c ∧ p = l1t ++ x :: (l2 ++ x :: l3) := by
          constructor <;> [exact (List.cons.injEq _ _ _ _ ▸ hsplit).1;
            exact (List.cons.injEq _ _ _ _ ▸ hsplit).2]
        have hq2 : pathFrom structs a
            ((l1t ++ [x]) ++ ((l2 ++ [x]) ++ (l3 ++ [a]))) := by
          rw [show (l1t ++ [x]) ++ ((l2 ++ [x]) ++ (l3 ++ [a])) =
            (l1t ++ x :: (l2 ++ x :: l3)) ++ [a] by simp]
          exact hp
        have h3 := ((pathFrom_append structs (l1t ++ [x]) a
          ((l2 ++ [x]) ++ (l3 ++ [a]))).1 hq2).2
        rw [getLastD_snoc] at h3
        have h4 := ((pathFrom_append structs (l2 ++ [x]) x (l3 ++ [a])).1 h3).1
        exact ih x l2 (by simp at hL ⊢; omega) h4

theorem hasCircular_of_cycle (ast : SchemaAST) (a : String)
    (p : List String) (hp : pathFrom ast.structs a (p ++ [a])) :
    hasCircularStructsB ast = true := by
  obtain ⟨c, q, hlen, hq⟩ :=
    cycle_shorten ast.structs p.length a p (Nat.le_refl _) hp
  unfold hasCircularStructsB
  apply List.any_eq_true.2
  refine ⟨c, ?_, reachF_of_path ast.structs q ast.structs.length c c hq hlen⟩
  cases q with
  | nil => exact structEdge_source_mem hq.1
  | cons d q2 => exact structEdge_source_mem hq.1

theorem exceptBind_ok {ε α β : Type} (x : Except ε α) (f : α → Except ε β)
    (b : β) (h : (x >>= f) = .ok b) : ∃ a, x = .ok a ∧ f a = .ok b := by
  cases x with
  | error e => exact absurd h (by simp [Bind.bind, Except.bind])
  | ok a => exact ⟨a, rfl, by simpa [Bind.bind, Except.bind] using h⟩

theorem indexStructFieldsF_mono (structs : List StructDefinition) (m : Nat)
    (hm : ∀ pfx name t, indexStructF m structs pfx name = .ok t →
      indexStructF (m + 1) structs pfx name = .ok t) :
    ∀ (fields : List FieldDefinition) (pfx : String)
      (t : List (String × FieldDefinition)),
      indexStructFieldsF m structs pfx fields = .ok t →
      indexStructFieldsF (m + 1) structs pfx fields = .ok t := by
  intro fields
  induction fields with
  | nil =>
    intro pfx t h
    simp only [indexStructFieldsF] at h ⊢
    exact h
  | cons f rest ihf =>
    intro pfx t h
    simp only [indexStructFieldsF] at h ⊢
    by_cases hc : isStructName structs f.type_name = true
    · rw [if_pos hc] at h ⊢
      obtain ⟨sub, hsub, h⟩ := exceptBind_ok _ _ _ h
      obtain ⟨tail, htail, h⟩ := exceptBind_ok _ _ _ h
      rw [hm _ _ _ hsub]
      simp only [Bind.bind, Except.bind]
      rw [ihf pfx tail htail]
      exact h
    · rw [if_neg hc] at h ⊢
      obtain ⟨sub, hsub, h⟩ := exceptBind_ok _ _ _ h
      obtain ⟨tail, htail, h⟩ := exceptBind_ok _ _ _ h
      cases hsub
      simp only [Bind.bind, Except.bind]
      rw [ihf pfx tail htail]
      exact h

theorem indexStructF_mono (structs : List StructDefinition) :
    ∀ (m : Nat) (pfx name : String) (t : List (String × FieldDefinition)),
      indexStructF m structs pfx name = .ok t →
      indexStructF (m + 1) structs pfx name = .ok t := by
  intro m
  induction m with
  | zero =>
    intro pfx name t h
    simp only [indexStructF] at h
    exact Except.noConfusion h
  | succ k ih =>
    intro pfx name t h
    simp only [indexStructF] at h ⊢
    cases hl : structMapLookup structs name with
    | none =>
      simp only [hl] at h ⊢
      exact h
    | some s =>
      simp only [hl] at h ⊢
      exact indexStructFieldsF_mono structs k ih s.fields pfx t h

theorem indexTopFieldsF_mono (structs : List StructDefinition) (m : Nat) :
    ∀ (fields : List FieldDefinition) (t : List (String × FieldDefinition)),
      indexTopFieldsF m structs fields = .ok t →
      indexTopFieldsF (m + 1) structs fields = .ok t := by
  intro fields
  induction fields with
  | nil =>
    intro t h
    simp only [indexTopFieldsF] at h ⊢
    exact h
  | cons f rest ihf =>
    intro t h
    simp only [indexTopFieldsF] at h ⊢
    by_cases hc : isStructName structs f.type_name = true
    · rw [if_pos hc] at h ⊢
      obtain ⟨sub, hsub, h⟩ := exceptBind_ok _ _ _ h
      obtain ⟨tail, htail, h⟩ := exceptBind_ok _ _ _ h
      rw [indexStructF_mono structs m _ _ _ hsub]
      simp only [Bind.bind, Except.bind]
      rw [ihf tail htail]
      exact h
    · rw [if_neg hc] at h ⊢
      obtain ⟨sub, hsub, h⟩ := exceptBind_ok _ _ _ h
      obtain ⟨tail, htail, h⟩ := exceptBind_ok _ _ _ h
      cases hsub
      simp only [Bind.bind, Except.bind]
      rw [ihf tail htail]
      exact h

theorem indexTopFieldsF_mono_le (structs : List StructDefinition)
    (m m2 : Nat) (hle : m ≤ m2) (fields : List FieldDefinition)
    (t : List (String × FieldDefinition))
    (h : indexTopFieldsF m structs fields = .ok t) :
    indexTopFieldsF m2 structs fields = .ok t := by
  induction hle with
  | refl => exact h
  | step h2 ih => exact indexTopFieldsF_mono structs _ fields t ih

theorem indexStructFieldsF_ok (structs : List StructDefinition) (k : Nat)
    (hok : ∀ name pfx, (∀ q, pathFrom structs name q → q.length < k) →
      ∃ t, indexStructF k structs pfx name = Except.ok t) :
    ∀ (fields : List FieldDefinition) (pfx : String),
      (∀ f ∈ fields, isStructName structs f.type_name = true →
        ∀ q, pathFrom structs f.type_name q → q.length < k) →
      ∃ t, indexStructFieldsF k structs pfx fields = Except.ok t := by
  intro fields
  induction fields with
  | nil =>
    intro pfx hfld
    exact ⟨[], by simp only [indexStructFieldsF]⟩
  | cons f rest ihf =>
    intro pfx hfld
    obtain ⟨tail, htail⟩ :=
      ihf pfx (fun g hg => hfld g (List.mem_cons_of_mem f hg))
    by_cases hc : isStructName structs f.type_name = true
    · obtain ⟨sub, hsub⟩ := hok f.type_name (pfx ++ "." ++ f.name)
        (hfld f (List.mem_cons_self f rest) hc)
      refine ⟨(pfx ++ "." ++ f.name, f) :: (sub ++ tail), ?_⟩
      simp only [indexStructFieldsF]
      rw [if_pos hc, hsub]
      simp only [Bind.bind, Except.bind]
      rw [htail]
    · refine ⟨(pfx ++ "." ++ f.name, f) :: ([] ++ tail), ?_⟩
      simp only [indexStructFieldsF]
      rw [if_neg hc]
      simp only [Bind.bind, Except.bind]
      rw [htail]

theorem indexStructF_ok (structs : List StructDefinition) :
    ∀ (fuel : Nat) (name pfx : String),
      (∀ q, pathFrom structs name q → q.length < fuel) →
      ∃ t, indexStructF fuel structs pfx name = Except.ok t := by
  intro fuel
  induction fuel with
  | zero =>
    intro name pfx hb
    exact absurd (hb [] True.intro) (by omega)
  | succ k ih =>
    intro name pfx hb
    cases hl : structMapLookup structs name with
    | none => exact ⟨[], by simp only [indexStructF, hl]⟩
    | some s =>
      have hfld : ∀ f ∈ s.fields, isStructName structs f.type_name = true →
          ∀ q, pathFrom structs f.type_name q → q.length < k := by
        intro f hf hft q hq
        have hed : structEdge structs name f.type_name :=
          ⟨s, hl, f, hf, rfl, hft⟩
        have h2 := hb (f.type_name :: q) ⟨hed, hq⟩
        simp at h2
        omega
      obtain ⟨t, ht⟩ := indexStructFieldsF_ok structs k ih s.fields pfx hfld
      exact ⟨t, by simp only [indexStructF, hl]; exact ht⟩

theorem indexTopFieldsF_ok (structs : List StructDefinition) (fuel : Nat)
    (hok : ∀ name pfx, (∀ q, pathFrom structs name q → q.length < fuel) →
      ∃ t, indexStructF fuel structs pfx name = Except.ok t)
    (hb : ∀ name q, pathFrom structs name q → q.length < fuel) :
    ∀ (fields : List FieldDefinition),
      ∃ t, indexTopFieldsF fuel structs fields = Except.ok t := by
  intro fields
  induction fields with
  | nil => exact ⟨[], by simp only [indexTopFieldsF]⟩
  | cons f rest ihf =>
    obtain ⟨tail, htail⟩ := ihf
    by_cases hc : isStructName structs f.type_name = true
    · obtain ⟨sub, hsub⟩ := hok f.type_name f.name (hb f.type_name)
      refine ⟨(f.name, f) :: (sub ++ tail), ?_⟩
      simp only [indexTopFieldsF]
      rw [if_pos hc, hsub]
      simp only [Bind.bind, Except.bind]
      rw [htail]
    · refine ⟨(f.name, f) :: ([] ++ tail), ?_⟩
      simp only [indexTopFieldsF]
      rw [if_neg hc]
      simp only [Bind.bind, Except.bind]
      rw [htail]

theorem path_bound_of_no_cycle (ast : SchemaAST)
    (hnc : hasCircularStructsB ast = false) :
    ∀ name q, pathFrom ast.structs name q →
      q.length < ast.structs.length + 1 := by
  intro name q hq
  by_contra hlen
  push_neg at hlen
  have hmem : ∀ x ∈ q, x ∈ ast.structs.map (fun s => s.name) :=
    fun x hx => pathFrom_mem_names q name x hq hx
  obtain ⟨x, hxx⟩ := long_list_has_dup q
    (ast.structs.map (fun s => s.name)) hmem
    (by rw [List.length_map]; omega)
  obtain ⟨l1, l2, l3, rfl⟩ := pair_sublist_split x q hxx
  have hq2 : pathFrom ast.structs name
      ((l1 ++ [x]) ++ ((l2 ++ [x]) ++ l3)) := by
    rw [show (l1 ++ [x]) ++ ((l2 ++ [x]) ++ l3) =
      l1 ++ x :: (l2 ++ x :: l3) by simp]
    exact hq
  have h3 := ((pathFrom_append ast.structs (l1 ++ [x]) name
    ((l2 ++ [x]) ++ l3)).1 hq2).2
  rw [getLastD_snoc] at h3
  have h4 := ((pathFrom_append ast.structs (l2 ++ [x]) x l3).1 h3).1
  exact absurd (hasCircular_of_cycle ast x l2 h4) (by simp [hnc])

/-- C8: schema validation rejects every schema whose struct-field-type
reference graph contains a cycle (a nonempty edge path from a struct
name back to itself) with `SchemaValidationError`; and on every schema
that validation accepts, the symbol-table construction — which
transitively expands struct-typed fields into dotted paths, and whose
blind recursion is modelled with explicit fuel — terminates: it
returns one definite table at every fuel of at least
`structs.length + 1`, never hitting the recursion limit. -/
theorem schema_cycles_rejected_and_symbol_table_terminates
    (ast : SchemaAST) :
    ((∃ a p, pathFrom ast.structs a (p ++ [a])) →
      validateSchemaM ast = .error .schemaValidation) ∧
    (validateSchemaM ast = .ok () →
      ∃ tbl, ∀ fuel, ast.structs.length + 1 ≤ fuel →
        buildSymbolTableF fuel ast = .ok tbl) := by
  constructor
  · rintro ⟨a, p, hp⟩
    have hc := hasCircular_of_cycle ast a p hp
    unfold validateSchemaM
    rw [hc]
    simp
  · intro hv
    have hnc : hasCircularStructsB ast = false := by
      by_contra hcc
      rw [Bool.not_eq_false] at hcc
      unfold validateSchemaM at hv
      rw [hcc] at hv
      simp at hv
    have hb := path_bound_of_no_cycle ast hnc
    obtain ⟨tbl, htbl⟩ := indexTopFieldsF_ok ast.structs
      (ast.structs.length + 1)
      (fun name pfx hbnd =>
        indexStructF_ok ast.structs (ast.structs.length + 1) name pfx hbnd)
      (fun name q hq => hb name q hq) ast.fields
    refine ⟨tbl, ?_⟩
    intro fuel hfuel
    exact indexTopFieldsF_mono_le ast.structs (ast.structs.length + 1)
      fuel hfuel ast.fields tbl htbl

/-- Witness for C8: the concrete cyclic schema `A {x: B}, B {y: A}` is
rejected by validation, and the concrete acyclic schema with a
struct-typed top-level field has a definite symbol table at every
sufficient fuel. -/
theorem schema_cycles_rejected_and_symbol_table_terminates_witness :
    validateSchemaM cyclicAstEx = .error .schemaValidation ∧
    (∃ tbl, ∀ fuel, acyclicAstEx.structs.length + 1 ≤ fuel →
      buildSymbolTableF fuel acyclicAstEx = .ok tbl) := by
  constructor
  · exact (schema_cycles_rejected_and_symbol_table_terminates cyclicAstEx).1
      ⟨"A", ["B"],
        ⟨structAEx, by decide, ⟨"x", "B"⟩, by decide, rfl, by decide⟩,
        ⟨structBEx, by decide, ⟨"y", "A"⟩, by decide, rfl, by decide⟩,
        True.intro⟩
  · exact (schema_cycles_rejected_and_symbol_table_terminates acyclicAstEx).2
      rfl

theorem pairMergeSort {α : Type} (le : α → α → Bool) (a b : α) :
    List.mergeSort [a, b] le = if le a b then [a, b] else [b, a] := by
  simp [List.mergeSort, List.merge]

theorem processMatches_id (opts : MatchOptions) (data_id : Value)
    (rms : List (String × Value)) (md : Metadata) (r : MatchResult)
    (h : processMatches opts data_id rms md = .ok r) : r.id = data_id := by
  unfold processMatches at h
  cases hm : opts.mode <;> simp only [hm] at h
  · obtain rfl := Except.ok.inj h
    rfl
  · split at h
    · obtain rfl := Except.ok.inj h
      rfl
    · split at h
      · split at h
        · obtain rfl := Except.ok.inj h
          rfl
        · obtain rfl := Except.ok.inj h
          rfl
      · obtain rfl := Except.ok.inj h
        rfl
  · exact Except.noConfusion h

theorem evaluateRulesForData_ids (fns : Funcs) :
    ∀ (rules : List CompiledRule) (d : Data) (vs : List (String × Value)),
      evaluateRulesForData fns rules d = .ok vs →
      vs.map Prod.fst = rules.map CompiledRule.rule_id
  | [], d, vs, h => by
    simp only [evaluateRulesForData] at h
    obtain rfl := Except.ok.inj h
    rfl
  | r :: rest, d, vs, h => by
    simp only [evaluateRulesForData] at h
    cases hv : evaluateSingle fns r d with
    | ok v =>
      simp only [hv] at h
      obtain ⟨tail, htail, h⟩ := exceptBind_ok _ _ _ h
      obtain rfl := Except.ok.inj h
      simp [evaluateRulesForData_ids fns rest d tail htail]
    | error err =>
      cases err
      case ruleEvaluation =>
        simp only [hv] at h
        obtain ⟨tail, htail, h⟩ := exceptBind_ok _ _ _ h
        obtain rfl := Except.ok.inj h
        simp [evaluateRulesForData_ids fns rest d tail htail]
      all_goals
        simp only [hv] at h
        exact Except.noConfusion h

theorem evalItem_id (c : CompiledRulesL) (item : Data) (r : MatchResult)
    (h : (if ((item.lookup "id").getD .none).isNone
        then (.error .valueError : Except PyErr MatchResult)
        else do
          let rule_results ←
            evaluateRulesForData c.function_registry c.rules item
          processMatches c.match_options ((item.lookup "id").getD .none)
            rule_results c.rule_metadata) = .ok r) :
    r.id = (item.lookup "id").getD .none := by
  by_cases hnone : ((item.lookup "id").getD Value.none).isNone = true
  · rw [if_pos hnone] at h
    exact Except.noConfusion h
  · rw [if_neg hnone] at h
    obtain ⟨vs, hvs, h⟩ := exceptBind_ok _ _ _ h
    exact processMatches_id _ _ _ _ _ h

theorem eval_ids_in_input_order (c : CompiledRulesL) :
    ∀ (ds : List Data) (rs : List MatchResult), c.eval ds = .ok rs →
      rs.map MatchResult.id = ds.map (fun d => (d.lookup "id").getD .none)
  | [], rs, h => by
    simp only [CompiledRulesL.eval, List.mapM_nil] at h
    obtain rfl : ([] : List MatchResult) = rs := by
      simpa [Pure.pure, Except.pure] using h
    rfl
  | d :: ds, rs, h => by
    simp only [CompiledRulesL.eval] at h
    rw [List.mapM_cons] at h
    obtain ⟨r, hr, h⟩ := exceptBind_ok _ _ _ h
    obtain ⟨rest, hrest, h⟩ := exceptBind_ok _ _ _ h
    obtain rfl : r :: rest = rs := by
      simpa [Pure.pure, Except.pure] using h
    have hid := evalItem_id c d r hr
    have htail := eval_ids_in_input_order c ds rest hrest
    simp [hid, htail]

/-- C4 (code bug): the ordering guarantee fails in exactly the case the
claim parenthesizes.  `RuleEngine._optimize_rule_order` keeps the
supplied order in FIRST mode with an ordering key and in every
non-FIRST mode; `RuleEvaluator` visits the container's rules in
container order (the verdict ids equal the container's rule ids, in
order) and `CompiledRules.eval` maps the decisions sequentially,
returning results in input order.  But in FIRST mode WITHOUT an
ordering key the compiled list is re-sorted by
`_estimate_rule_complexity` of each rule's `str()` — `CompiledRule` has
no `rule_text`, so the key is the address-dependent default object
repr — and a pair of rules whose reprs print at different widths is
handed to the container, and hence visited, in swapped order. -/
theorem rule_order_resort_bug :
    (∀ (reprOf : CompiledRule → String) (rules : List CompiledRule)
      (opts : MatchOptions), opts.mode = .FIRST →
      opts.ordering_key.isSome = true →
      optimizeRuleOrder reprOf rules opts = rules) ∧
    (∀ (reprOf : CompiledRule → String) (rules : List CompiledRule)
      (opts : MatchOptions), opts.mode ≠ .FIRST →
      optimizeRuleOrder reprOf rules opts = rules) ∧
    (∀ (fns : Funcs) (rules : List CompiledRule) (d : Data)
      (vs : List (String × Value)),
      evaluateRulesForData fns rules d = .ok vs →
      vs.map Prod.fst = rules.map CompiledRule.rule_id) ∧
    (∀ (c : CompiledRulesL) (ds : List Data) (rs : List MatchResult),
      c.eval ds = .ok rs →
      rs.map MatchResult.id = ds.map (fun d => (d.lookup "id").getD .none)) ∧
    (optimizeRuleOrder reprEx [ruleAEx, ruleBEx]
        ⟨.FIRST, none, .asc⟩).map CompiledRule.rule_id = ["r2", "r1"] := by
  refine ⟨?_, ?_, ?_, ?_, ?_⟩
  · intro reprOf rules opts hm hk
    by_cases he : rules.isEmpty <;> simp [optimizeRuleOrder, hm, hk, he]
  · intro reprOf rules opts hm
    by_cases he : rules.isEmpty
    · simp [optimizeRuleOrder, he]
    · have hmf : (opts.mode == MatchMode.FIRST) = false := by
        cases hmm : opts.mode <;> simp_all
      simp [optimizeRuleOrder, he, hmf]
  · exact fun fns rules d vs h => evaluateRulesForData_ids fns rules d vs h
  · exact fun c ds rs h => eval_ids_in_input_order c ds rs h
  · have h1 : optimizeRuleOrder reprEx [ruleAEx, ruleBEx]
        ⟨.FIRST, none, .asc⟩ =
        List.mergeSort [ruleAEx, ruleBEx] (fun a b =>
          Nat.ble (estimateRuleComplexity (reprEx a))
            (estimateRuleComplexity (reprEx b))) := rfl
    have hble : Nat.ble (estimateRuleComplexity (reprEx ruleAEx))
        (estimateRuleComplexity (reprEx ruleBEx)) = false := by decide
    rw [h1, pairMergeSort]
    rw [if_neg]
    · rfl
    · show ¬(Nat.ble (estimateRuleComplexity (reprEx ruleAEx))
        (estimateRuleComplexity (reprEx ruleBEx)) = true)
      simp [hble]

/-- Witness for C4: on the two demonstration rules, FIRST with an
ordering key and ALL mode keep the supplied order, while FIRST without
a key hands them over swapped. -/
theorem rule_order_resort_bug_witness :
    optimizeRuleOrder reprEx [ruleAEx, ruleBEx]
      ⟨.FIRST, some "ordering", .asc⟩ = [ruleAEx, ruleBEx] ∧
    optimizeRuleOrder reprEx [ruleAEx, ruleBEx] ⟨.ALL, none, .asc⟩ =
      [ruleAEx, ruleBEx] ∧
    (optimizeRuleOrder reprEx [ruleAEx, ruleBEx]
        ⟨.FIRST, none, .asc⟩).map CompiledRule.rule_id = ["r2", "r1"] :=
  ⟨rule_order_resort_bug.1 reprEx [ruleAEx, ruleBEx]
      ⟨.FIRST, some "ordering", .asc⟩ rfl rfl,
    rule_order_resort_bug.2.1 reprEx [ruleAEx, ruleBEx]
      ⟨.ALL, none, .asc⟩ (by decide),
    rule_order_resort_bug.2.2.2.2⟩

/-- C6 (code bug): `compile` (and `eval`, which calls it) freezes the
engine as its first action; on a frozen engine each of `add_function`,
`register_type`, `register_operator` raises `EngineAlreadyFrozenError`
before touching any registry.  The claim's unconditional pre-freeze
half — "before the first compile these calls succeed" — is false of the
code for `register_type`: on a non-frozen engine a name already present
in the type registry raises `TypeValidationError` (the `overwrite=True`
the engine passes is swallowed into `**constraints`), while a fresh
name succeeds by appending. -/
theorem engine_freeze_and_duplicate_type_bug (e : Engine)
    (name base : String) (fnId vId : Nat) (op : OperatorDef) :
    ((e.compileMark).frozen = true ∧ (e.evalMark).frozen = true) ∧
    (e.frozen = true →
      e.add_function name fnId = .error .engineAlreadyFrozen ∧
      e.register_type name base vId = .error .engineAlreadyFrozen ∧
      e.register_operator op = .error .engineAlreadyFrozen) ∧
    (e.frozen = false →
      e.add_function name fnId =
        .ok { e with functions := dictSet e.functions name fnId } ∧
      ((e.type_registry.lookup name).isSome = true →
        e.register_type name base vId = .error .typeValidation) ∧
      (e.type_registry.lookup name = none →
        e.register_type name base vId =
          .ok { e with type_registry :=
            e.type_registry ++ [(name, ⟨base, vId, [("overwrite", true)]⟩)] }) ∧
      (∀ reg, e.op_registry.register op = .ok reg →
        e.register_operator op = .ok { e with op_registry := reg })) := by
  refine ⟨⟨rfl, rfl⟩, fun hf => ?_, fun hf => ?_⟩
  · simp [Engine.add_function, Engine.register_type, Engine.register_operator,
      Engine.check_frozen, hf, Bind.bind, Except.bind]
  · refine ⟨?_, fun hp => ?_, fun hn => ?_, fun reg hr => ?_⟩ <;>
      simp [Engine.add_function, Engine.register_type,
        Engine.register_operator, Engine.check_frozen, hf, registerTypeReg,
        Bind.bind, Except.bind, Pure.pure, *]

/-- Witness for C6: a frozen engine rejects `add_function`; a
non-frozen engine with the builtin `email` registered rejects
`register_type("email", ...)` with `TypeValidationError`; a fresh name
registers by appending. -/
theorem engine_freeze_and_duplicate_type_bug_witness :
    (Engine.add_function { frozen := true } "f" 0 =
      .error .engineAlreadyFrozen) ∧
    (Engine.register_type
      { type_registry := [("email", ⟨"Str", 0, []⟩)], frozen := false }
      "email" "Str" 9 = .error .typeValidation) ∧
    (Engine.register_type { frozen := false } "money" "Int" 3 =
      .ok { type_registry := [("money", ⟨"Int", 3, [("overwrite", true)]⟩)],
            frozen := false }) := by
  refine ⟨?_, ?_, ?_⟩
  · exact ((engine_freeze_and_duplicate_type_bug { frozen := true }
      "f" "Str" 0 0 { fn := none, binding_power := 40 }).2.1 rfl).1
  · exact (((engine_freeze_and_duplicate_type_bug
      { type_registry := [("email", ⟨"Str", 0, []⟩)], frozen := false }
      "email" "Str" 0 9 { fn := none, binding_power := 40 }).2.2 rfl).2.1
      (by decide))
  · exact (((engine_freeze_and_duplicate_type_bug { frozen := false }
      "money" "Int" 0 3 { fn := none, binding_power := 40 }).2.2 rfl).2.2.1
      rfl)

/-- C9 (code bug): the claim — with the spec ("overwrites by design") —
says `register_type` on a non-frozen engine with a name already present
succeeds and replaces the entry.  The code does the opposite:
`Engine.register_type` forwards `overwrite=True`, but
`TypeRegistry.register_type` has no such parameter (the keyword is
collected into `**constraints`) and raises `TypeValidationError`
whenever the name is present — the call fails and no entry is ever
replaced. -/
theorem register_type_duplicate_rejected (e : Engine)
    (name base : String) (vId : Nat) (hf : e.frozen = false)
    (hp : (e.type_registry.lookup name).isSome = true) :
    e.register_type name base vId = .error .typeValidation ∧
    ∀ e2, e.register_type name base vId ≠ .ok e2 := by
  have h : e.register_type name base vId = .error .typeValidation := by
    simp [Engine.register_type, Engine.check_frozen, hf, registerTypeReg, hp,
      Bind.bind, Except.bind]
  exact ⟨h, fun e2 hok => by rw [h] at hok; exact Except.noConfusion hok⟩

/-- Witness for C9: a non-frozen engine whose registry holds the seeded
builtin `email` rejects `register_type("email", ...)` with
`TypeValidationError` instead of overwriting. -/
theorem register_type_duplicate_rejected_witness :
    ((([("email", (⟨"Str", 0, []⟩ : TypeDef))]).lookup "email").isSome
      = true) ∧
    Engine.register_type
      { type_registry := [("email", ⟨"Str", 0, []⟩)], frozen := false }
      "email" "Str" 9 = .error .typeValidation :=
  ⟨by decide,
    (register_type_duplicate_rejected
      { type_registry := [("email", ⟨"Str", 0, []⟩)], frozen := false }
      "email" "Str" 9 rfl (by decide)).1⟩

end Amino
